import Mathlib

/-!
# sshfs-go: node tree, inode registry, translator and volume driver

A shallow embedding of `fs/node.go`, `fs/dir.go`, `File.Open` and `File.Read` of
`fs/file.go`, and the mount bookkeeping of `docker/driver.go`.

* Go pointers `*Node` are addresses (natural numbers) into a heap `Nat → Node`; a nil
  pointer is `none`.  Each node owns exactly one `Dir` and one `File` facet
  (created in `NewNode`), so `*Dir` and `*File` values stored in child lists
  are represented by the address of their node.
* The process-wide registry `inodeCache` (a go-cache instance used without
  expiry) is a finite map from string keys to node addresses.
* `uint64` arithmetic is `Nat` arithmetic modulo `2 ^ 64`.
* The SFTP client is an oracle (`Remote`); every call issued is appended to
  the `calls` log of the state.
* Loops that follow parent pointers take fuel; a nil dereference is `panic`.
-/

namespace Sshfs

/-! ## Strings: decimal formatting and lexical path functions (Go standard library) -/

/-- The ASCII digit for `d < 10`. -/
def digitChar (d : Nat) : Char := Char.ofNat (48 + d)

/-- Decimal digits of `n`, most significant first (needs `fuel > log10 n`). -/
def formatDigits : Nat → Nat → List Char
  | 0, _ => []
  | fuel + 1, n =>
    if n < 10 then [digitChar n] else formatDigits fuel (n / 10) ++ [digitChar (n % 10)]

/-- Model of `strconv.FormatUint(n, 10)`. -/
def FormatUint (n : Nat) : String := String.mk (formatDigits (n + 1) n)

/-- Split a path at every `/`. -/
def splitSlash : List Char → List (List Char)
  | [] => [[]]
  | c :: cs =>
    if c = '/' then [] :: splitSlash cs
    else
      match splitSlash cs with
      | [] => [[c]]
      | x :: xs => (c :: x) :: xs

/-- One component of `Clean`; the stack holds the kept components, last first. -/
def cleanStep (rooted : Bool) (stack : List (List Char)) (comp : List Char) : List (List Char) :=
  if comp = [] ∨ comp = ['.'] then stack
  else if comp = ['.', '.'] then
    match stack with
    | [] => if rooted then [] else [comp]
    | top :: rest => if top = ['.', '.'] then comp :: stack else rest
  else comp :: stack

/-- Model of `filepath.Clean` (Unix): drops empty and `.` components, resolves `..`. -/
def Clean (path : String) : String :=
  if path = "" then "."
  else
    let rooted : Bool := path.data.head? = some '/'
    let comps := (splitSlash path.data).foldl (cleanStep rooted) []
    let body := String.intercalate "/" (comps.reverse.map String.mk)
    if rooted then "/" ++ body else if body = "" then "." else body

/-- Model of `filepath.Join` / `path.Join`: leading empty elements are skipped, the rest
is joined with `/` and cleaned; the result is empty when every element is empty. -/
def Join (elem : List String) : String :=
  match elem.dropWhile (fun e => e == "") with
  | [] => ""
  | es => Clean (String.intercalate "/" es)

/-- Model of `filepath.Base` (Unix). -/
def Base (path : String) : String :=
  if path = "" then "."
  else
    let stripped := path.data.reverse.dropWhile (fun c => c == '/')
    let last := (stripped.takeWhile (fun c => c != '/')).reverse
    if last = [] then "/" else String.mk last

/-! ## Data model -/

/-- The `Node` struct of `fs/node.go` together with the child lists of its `Dir` facet. -/
structure Node where
  inode : Nat
  name : String
  path : String
  localpath : String
  isdir : Bool
  isroot : Bool
  parent : Option Nat
  Files : Option (List Nat)
  Dirs : Option (List Nat)
  deriving DecidableEq, Inhabited

/-- Error reported by the SFTP client. -/
inductive RemoteErr where
  | notExist
  | other (code : Nat)
  deriving DecidableEq

/-- Error value handed back to the FUSE bridge. -/
inductive Errno where
  | ENOENT
  | ENOTEMPTY
  | ENOTSUP
  | remote (e : RemoteErr)
  deriving DecidableEq

/-- Outcome of a Go function: a value, a returned error, a run-time panic
(nil dereference), or fuel exhausted (the Go loop had not finished). -/
inductive Result (α : Type) where
  | ok (a : α)
  | error (e : Errno)
  | panic
  | timeout
  deriving DecidableEq

/-- What `Stat` and `ReadDir` report about a remote entry. -/
structure FileInfo where
  name : String
  isDir : Bool
  deriving DecidableEq

/-- A call made on the SFTP client. -/
inductive Call where
  | stat (path : String)
  | readDir (path : String)
  | mkdir (path : String)
  | create (path : String)
  | chmod (path : String) (mode : Nat)
  | chown (path : String) (uid gid : Nat)
  | remove (path : String)
  | removeDirectory (path : String)
  | rename (opath npath : String)
  | openFile (path : String) (flags : Nat)
  deriving DecidableEq

/-- The remote side: the answer of the SFTP server to each call (`none` is success). -/
structure Remote where
  Stat : String → Except RemoteErr FileInfo
  ReadDir : String → Except RemoteErr (List FileInfo)
  Mkdir : String → Option RemoteErr
  Create : String → Option RemoteErr
  Chmod : String → Nat → Option RemoteErr
  Chown : String → Nat → Nat → Option RemoteErr
  Remove : String → Option RemoteErr
  RemoveDirectory : String → Option RemoteErr

/-- A directory entry returned by `ReadDirAll`. -/
structure Dirent where
  Name : String
  Inode : Nat
  isDirType : Bool
  deriving DecidableEq

/-- Requested capacity of the `freeInode` queue (`sq.NewQueue(1000000)`). -/
def freeInodeCapacity : Nat := 1000000

/-- The package-level variables of `fs/node.go`, the heap of nodes, and the log of
SFTP calls. -/
structure State where
  ginode : Nat
  freeInode : List Nat
  inodeCache : String → Option Nat
  heap : Nat → Node
  nextPtr : Nat
  calls : List Call

/-- Process start: `ginode = 900000000`, empty queue, empty registry, no node allocated. -/
def State.init : State :=
  { ginode := 900000000, freeInode := [], inodeCache := fun _ => none,
    heap := fun _ => default, nextPtr := 0, calls := [] }

/-! ## The registry (`inodeCache`) and the inode allocator -/

/-- Model of `cache.Set(k, v, NoExpiration)`. -/
def Cache.Set (c : String → Option Nat) (k : String) (v : Nat) : String → Option Nat :=
  fun k2 => if k2 = k then some v else c k2

/-- Model of `cache.Delete(k)`. -/
def Cache.Delete (c : String → Option Nat) (k : String) : String → Option Nat :=
  fun k2 => if k2 = k then none else c k2

/-- Registry key of a child entry: `FormatUint(parentInode, 10) + "_" + name`. -/
def childKey (parentInode : Nat) (name : String) : String :=
  FormatUint parentInode ++ "_" ++ name

/-- Source `InitInode`: overwrite the counter. -/
def InitInode (s : State) (inode : Nat) : State :=
  { s with ginode := inode }

/-- Source `genInode`: `ginode++; return ginode` on a `uint64`.  The read of the
free-list is commented out in the source, so the queue is not consulted. -/
def genInode (s : State) : State × Nat :=
  let g := (s.ginode + 1) % 2 ^ 64
  ({ s with ginode := g }, g)

/-- Source `Node.Save`: store the node under its inode key and, when it has a parent,
under the child key of that parent. -/
def Node.Save (s : State) (n : Nat) : State :=
  let nd := s.heap n
  let c1 := Cache.Set s.inodeCache (FormatUint nd.inode) n
  match nd.parent with
  | none => { s with inodeCache := c1 }
  | some q => { s with inodeCache := Cache.Set c1 (childKey (s.heap q).inode nd.name) n }

/-- Source `reverse`: the in-place two-index swap loop (`fuel` bounds the iterations). -/
def reverse.loop : Nat → List String → Nat → Nat → List String
  | 0, s, _, _ => s
  | fuel + 1, s, i, j =>
    if i < j then
      reverse.loop fuel ((s.set i (s.getD j "")).set j (s.getD i "")) (i + 1) (j - 1)
    else s

/-- Source `reverse`: `for i, j := 0, len(s)-1; i < j; i, j = i+1, j-1`. -/
def reverse (s : List String) : List String :=
  reverse.loop s.length s 0 (s.length - 1)

/-- The loop shared by `Path` and `LocalPath`: climb from `pnode` while it is not a
root, appending names; at the root append `field` of the root (`path` or `localpath`). -/
def Node.climb (field : Node → String) (h : Nat → Node) :
    Nat → Node → List String → Result (List String)
  | 0, _, _ => .timeout
  | fuel + 1, pnode, path =>
    if pnode.isroot then .ok (path ++ [field pnode])
    else
      match pnode.parent with
      | none => .panic
      | some q => Node.climb field h fuel (h q) (path ++ [pnode.name])

/-- Source `Node.Path`. -/
def Node.Path (h : Nat → Node) (fuel : Nat) (n : Nat) : Result String :=
  if (h n).isroot then .ok (h n).path
  else
    match (h n).parent with
    | none => .panic
    | some q =>
      match Node.climb Node.path h fuel (h q) [(h n).name] with
      | .ok path => .ok (Join (reverse path))
      | .error e => .error e
      | .panic => .panic
      | .timeout => .timeout

/-- Source `Node.LocalPath`. -/
def Node.LocalPath (h : Nat → Node) (fuel : Nat) (n : Nat) : Result String :=
  if (h n).isroot then .ok (h n).localpath
  else
    match (h n).parent with
    | none => .panic
    | some q =>
      match Node.climb Node.localpath h fuel (h q) [(h n).name] with
      | .ok path => .ok (Join (reverse path))
      | .error e => .error e
      | .panic => .panic
      | .timeout => .timeout

/-- Source `NewNode` (the `sftp` argument is the oracle passed to each operation). -/
def NewNode (s : State) (inode : Nat) (parent : Option Nat) (name : String)
    (isdir isroot : Bool) : State × Nat :=
  let s1 := (genInode s).1
  let g := (genInode s).2
  let p := s1.nextPtr
  let node0 : Node :=
    { inode := g, name := name, path := "", localpath := "", isdir := isdir,
      isroot := isroot, parent := parent, Files := none, Dirs := none }
  let node1 : Node :=
    if isdir && isroot then { node0 with path := name, name := Base name } else node0
  let node2 : Node := if inode > 0 then { node1 with inode := inode } else node1
  let s2 : State := { s1 with heap := Function.update s1.heap p node2, nextPtr := p + 1 }
  (Node.Save s2 p, p)

/-- Source `NewRoot`. -/
def NewRoot (s : State) (root : String) : State × Nat :=
  NewNode s 0 none root true true

/-- Source `GetNodeByID`. -/
def GetNodeByID (s : State) (inode : Nat) : Option Nat :=
  s.inodeCache (FormatUint inode)

/-- Source `Node.GetChild`. -/
def Node.GetChild (s : State) (n : Nat) (name : String) : Option Nat :=
  s.inodeCache (childKey (s.heap n).inode name)

/-- Source `Node.Rename`: drop the old child key built from the receiver `n`, move
`onode` under `ndir` with the new name, and save it again. -/
def Node.Rename (s : State) (n onode : Nat) (ndir : Option Nat) (nname : String) : State :=
  let c := Cache.Delete s.inodeCache (childKey (s.heap n).inode (s.heap onode).name)
  let moved : Node := { s.heap onode with parent := ndir, name := nname }
  Node.Save { s with inodeCache := c, heap := Function.update s.heap onode moved } onode

/-- Source `Node.rmInode`: `freeInode.Put(n.inode)`; a full queue drops the value. -/
def Node.rmInode (s : State) (n : Nat) : State :=
  if s.freeInode.length < freeInodeCapacity then
    { s with freeInode := s.freeInode ++ [(s.heap n).inode] }
  else s

/-- Source `Node.Remove`: delete both registry keys and release the inode. -/
def Node.Remove (s : State) (n : Nat) : State :=
  let nd := s.heap n
  let c1 := Cache.Delete s.inodeCache (FormatUint nd.inode)
  let c2 :=
    match nd.parent with
    | none => c1
    | some q => Cache.Delete c1 (childKey (s.heap q).inode nd.name)
  Node.rmInode { s with inodeCache := c2 } n

/-! ## The directory translator (`fs/dir.go`) -/

/-- Append a call to the log of SFTP calls. -/
def State.logCall (s : State) (c : Call) : State :=
  { s with calls := s.calls ++ [c] }

/-- Assign `d.Dirs`. -/
def State.setDirs (s : State) (d : Nat) (l : List Nat) : State :=
  { s with heap := Function.update s.heap d { s.heap d with Dirs := some l } }

/-- Assign `d.Files`. -/
def State.setFiles (s : State) (d : Nat) (l : List Nat) : State :=
  { s with heap := Function.update s.heap d { s.heap d with Files := some l } }

/-- Lines 129-145 of `Dir.Lookup`: create the node for the entry `f` found remotely and
put it into the child list of its kind (`append(*d.Dirs, directories...)`). -/
def Dir.Lookup.link (s : State) (d : Nat) (f : FileInfo) : State × Result Nat :=
  let s1 := (NewNode s 0 (some d) f.name f.isDir false).1
  let childnode := (NewNode s 0 (some d) f.name f.isDir false).2
  if f.isDir then
    let directories :=
      match (s1.heap d).Dirs with
      | some ds => ds ++ [childnode]
      | none => [childnode]
    (s1.setDirs d directories, .ok childnode)
  else
    let files :=
      match (s1.heap d).Files with
      | some fs => fs ++ [childnode]
      | none => [childnode]
    (s1.setFiles d files, .ok childnode)

/-- The call `err.Error()` on the `error` returned by `Stat`: a method call on a nil
interface value is a run-time panic. -/
def errorText : Option RemoteErr → Result Unit
  | none => .panic
  | some _ => .ok ()

/-- The `err` component of the pair returned by `Stat`. -/
def statErr (x : Except RemoteErr FileInfo) : Option RemoteErr :=
  match x with
  | .ok _ => none
  | .error e => some e

/-- Source `Dir.Lookup`.  The result is the address of the child node (the source
returns its `Dir` or `File` facet).  Line 122 evaluates `err.Error()` as an argument
of the debug log before the `err != nil` test of line 123. -/
def Dir.Lookup (r : Remote) (fuel : Nat) (s : State) (d : Nat) (name : String) :
    State × Result Nat :=
  match Node.Path s.heap fuel d with
  | .ok dpath =>
    let path := Join [dpath, name]
    match Node.GetChild s d name with
    | some childNode => (s, .ok childNode)
    | none =>
      let s1 := s.logCall (.stat path)
      match errorText (statErr (r.Stat path)) with
      | .ok _ =>
        match r.Stat path with
        | .error err =>
          if err = .notExist then (s1, .error .ENOENT) else (s1, .error (.remote err))
        | .ok f => Dir.Lookup.link s1 d f
      | _ => (s1, .panic)
  | .error e => (s, .error e)
  | .panic => (s, .panic)
  | .timeout => (s, .timeout)

/-- The loop of `Dir.Remove` over `*d.Dirs`: keep the entries with another name; an
entry with the removed name whose `Files` is non-nil makes the function return
`ENOTEMPTY` (`none` here). -/
def Dir.Remove.loop (h : Nat → Node) (name : String) : List Nat → List Nat → Option (List Nat)
  | [], newDirs => some newDirs
  | directory :: rest, newDirs =>
    if (h directory).name ≠ name then Dir.Remove.loop h name rest (newDirs ++ [directory])
    else if (h directory).Files ≠ none then none
    else Dir.Remove.loop h name rest newDirs

/-- `x != nil && len(*x) > 0` for a child list. -/
def nonEmptyList (l : Option (List Nat)) : Bool :=
  match l with
  | some xs => decide (0 < xs.length)
  | none => false

/-- Source `Dir.Remove` (`isDir` is `req.Dir`). -/
def Dir.Remove (r : Remote) (fuel : Nat) (s : State) (d : Nat) (name : String)
    (isDir : Bool) : State × Result Unit :=
  match Node.Path s.heap fuel d with
  | .ok dpath =>
    let path := Join [dpath, name]
    let rmnode := Node.GetChild s d name
    if isDir then
      match rmnode with
      | none => (s, .panic)
      | some rm =>
        if nonEmptyList (s.heap rm).Dirs then (s, .error .ENOTEMPTY)
        else if nonEmptyList (s.heap rm).Files then (s, .error .ENOTEMPTY)
        else
          let s1 := s.logCall (.removeDirectory path)
          match r.RemoveDirectory path with
          | some err => (s1, .error (.remote err))
          | none =>
            let s2 := Node.Remove s1 rm
            match (s2.heap d).Dirs with
            | none => (s2, .panic)
            | some ds =>
              match Dir.Remove.loop s2.heap name ds [] with
              | none => (s2, .error .ENOTEMPTY)
              | some newDirs => (s2.setDirs d newDirs, .ok ())
    else
      let s1 := s.logCall (.remove path)
      match r.Remove path with
      | some err => (s1, .error (.remote err))
      | none =>
        let s2 :=
          match rmnode with
          | some rm => Node.Remove s1 rm
          | none => s1
        match (s2.heap d).Files with
        | some fs => (s2.setFiles d (fs.filter (fun file => (s2.heap file).name ≠ name)), .ok ())
        | none => (s2, .ok ())
  | .error e => (s, .error e)
  | .panic => (s, .panic)
  | .timeout => (s, .timeout)

/-- Accumulators of the loop of `Dir.ReadDirAll`. -/
structure ReadAcc where
  s : State
  directories : List Nat
  files : List Nat
  dirs : List Dirent

/-- One iteration of the loop of `Dir.ReadDirAll` for the listing entry `f`. -/
def Dir.ReadDirAll.step (d : Nat) (acc : ReadAcc) (f : FileInfo) : ReadAcc :=
  let found := Node.GetChild acc.s d f.name
  let s1 :=
    match found with
    | some _ => acc.s
    | none => (NewNode acc.s 0 (some d) f.name f.isDir false).1
  let childnode :=
    match found with
    | some c => c
    | none => (NewNode acc.s 0 (some d) f.name f.isDir false).2
  let entry : Dirent :=
    { Name := (s1.heap childnode).name, Inode := (s1.heap childnode).inode, isDirType := f.isDir }
  if f.isDir then
    { s := s1, directories := acc.directories ++ [childnode], files := acc.files,
      dirs := acc.dirs ++ [entry] }
  else
    { s := s1, directories := acc.directories, files := acc.files ++ [childnode],
      dirs := acc.dirs ++ [entry] }

/-- Source `Dir.ReadDirAll`. -/
def Dir.ReadDirAll (r : Remote) (fuel : Nat) (s : State) (d : Nat) :
    State × Result (List Dirent) :=
  match Node.Path s.heap fuel d with
  | .ok dpath =>
    let s1 := s.logCall (.readDir (Join [dpath]))
    match r.ReadDir (Join [dpath]) with
    | .error err => (s1, .error (.remote err))
    | .ok fs =>
      let acc := fs.foldl (Dir.ReadDirAll.step d)
        { s := s1, directories := [], files := [], dirs := [] }
      ((acc.s.setDirs d acc.directories).setFiles d acc.files, .ok acc.dirs)
  | .error e => (s, .error e)
  | .panic => (s, .panic)
  | .timeout => (s, .timeout)

/-- Lift a failed `Path` call into the result of the calling operation. -/
def Result.fail {α β : Type} : Result α → Result β
  | .ok _ => .panic
  | .error e => .error e
  | .panic => .panic
  | .timeout => .timeout

/-- Source `Dir.Mkdir` (`newNode.Path()` is evaluated once: the heap does not change
between its three uses). -/
def Dir.Mkdir (r : Remote) (fuel : Nat) (s : State) (d : Nat) (name : String)
    (mode uid gid : Nat) : State × Result Nat :=
  match Node.GetChild s d name with
  | some childnode => (s, .ok childnode)
  | none =>
    let s1 := (NewNode s 0 (some d) name true false).1
    let newNode := (NewNode s 0 (some d) name true false).2
    match Node.Path s1.heap fuel newNode with
    | .ok p =>
      let s2 := s1.logCall (.mkdir p)
      match r.Mkdir p with
      | some err => (s2, .error (.remote err))
      | none =>
        let s3 := s2.logCall (.chmod p mode)
        match r.Chmod p mode with
        | some err => (s3, .error (.remote err))
        | none =>
          let s4 := s3.logCall (.chown p uid gid)
          match r.Chown p uid gid with
          | some err => (s4, .error (.remote err))
          | none =>
            let dirs :=
              match (s4.heap d).Dirs with
              | some ds => ds ++ [newNode]
              | none => [newNode]
            (s4.setDirs d dirs, .ok newNode)
    | other => (s1, other.fail)

/-- Source `Dir.Create` (the open remote handle stored in `newNode.File.file` is not
part of the model; `newNode.Path()` is evaluated once). -/
def Dir.Create (r : Remote) (fuel : Nat) (s : State) (d : Nat) (name : String)
    (mode uid gid : Nat) : State × Result Nat :=
  match Node.GetChild s d name with
  | some node => (s, .ok node)
  | none =>
    let s1 := (NewNode s 0 (some d) name false false).1
    let newNode := (NewNode s 0 (some d) name false false).2
    match Node.Path s1.heap fuel newNode with
    | .ok p =>
      let s2 := s1.logCall (.create p)
      match r.Create p with
      | some err => (s2, .error (.remote err))
      | none =>
        let s3 := s2.logCall (.chmod p mode)
        match r.Chmod p mode with
        | some err => (s3, .error (.remote err))
        | none =>
          let s4 := s3.logCall (.chown p uid gid)
          match r.Chown p uid gid with
          | some err => (s4, .error (.remote err))
          | none =>
            let files :=
              match (s4.heap d).Files with
              | some fs => fs ++ [newNode]
              | none => [newNode]
            (s4.setFiles d files, .ok newNode)
    | other => (s1, other.fail)

/-- The filter loops of `Dir.Rename`: entries whose inode differs from `inode`. -/
def keepOthers (h : Nat → Node) (inode : Nat) (l : List Nat) : List Nat :=
  l.filter (fun x => (h x).inode ≠ inode)

/-- Source `Dir.Rename` (`newDir` is the node of the target directory; the result of
`sftp.Rename` is discarded by the source). -/
def Dir.Rename (fuel : Nat) (s : State) (d : Nat) (oldName newName : String)
    (newDir : Nat) : State × Result Unit :=
  match Node.Path s.heap fuel d with
  | .ok dp =>
    match Node.Path s.heap fuel newDir with
    | .ok np =>
      let opath := Join [dp, oldName]
      let npath := Join [np, newName]
      match Node.GetChild s d oldName with
      | none => (s, .panic)
      | some onode =>
        let s1 := (Node.Rename s d onode (some newDir) newName).logCall (.rename opath npath)
        if (s1.heap newDir).inode = (s1.heap d).inode then (s1, .ok ())
        else if (s1.heap onode).isdir then
          let s2 :=
            match (s1.heap d).Dirs with
            | some ds => s1.setDirs d (keepOthers s1.heap (s1.heap onode).inode ds)
            | none => s1
          match (s2.heap newDir).Dirs with
          | none => (s2, .ok ())
          | some _ =>
            match (s2.heap d).Dirs with
            | none => (s2, .panic)
            | some ds =>
              (s2.setDirs d (onode :: keepOthers s2.heap (s2.heap onode).inode ds), .ok ())
        else
          let s2 :=
            match (s1.heap d).Files with
            | some fs => s1.setFiles d (keepOthers s1.heap (s1.heap onode).inode fs)
            | none => s1
          match (s2.heap newDir).Files with
          | none => (s2, .ok ())
          | some _ =>
            match (s2.heap d).Files with
            | none => (s2, .panic)
            | some fs =>
              (s2.setFiles d (onode :: keepOthers s2.heap (s2.heap onode).inode fs), .ok ())
    | other => (s, other.fail)
  | other => (s, other.fail)

/-- Source `SSHFS.Root` (`fs/fs.go`): create the root node for the remote root `root`
and record the local mountpoint in it. -/
def SSHFS.Root (s : State) (root mountpoint : String) : State × Nat :=
  let s1 := (NewRoot s root).1
  let rnode := (NewRoot s root).2
  ({ s1 with heap := Function.update s1.heap rnode { s1.heap rnode with localpath := mountpoint } },
    rnode)

/-! ## Specification vocabulary -/

/-- Following `parent` from `n` visits exactly the non-root nodes `below` (starting
with `n` itself, nearest first) and then arrives at the root node `r`.  For a root node
`n` the list is empty and `r = n`. -/
def ascends (h : Nat → Node) : Nat → List Nat → Nat → Prop
  | n, [], r => n = r ∧ (h r).isroot = true
  | n, x :: xs, r =>
    n = x ∧ (h x).isroot = false ∧ ∃ q, (h x).parent = some q ∧ ascends h q xs r

/-- The names of the nodes of `below`, in root-to-node order. -/
def namesFromRoot (h : Nat → Node) (below : List Nat) : List String :=
  below.reverse.map (fun p => (h p).name)

/-- Example state: the remote root `/srv/data` mounted at `/mnt/x` with seed 100, a
directory `a` (address 1) below the root (address 0) and a file `b.txt` (address 2)
inside `a`. -/
def exTree : State :=
  let s0 := (SSHFS.Root (InitInode State.init 100) "/srv/data" "/mnt/x").1
  let s1 := (NewNode s0 0 (some 0) "a" true false).1
  (NewNode s1 0 (some 1) "b.txt" false false).1

/-- Arguments of one `NewNode` call. -/
structure NewArgs where
  inode : Nat
  parent : Option Nat
  name : String
  isdir : Bool
  isroot : Bool

/-- A call that touches the inode allocator. -/
inductive AllocOp where
  | init (inode : Nat)
  | new (a : NewArgs)

/-- Run a sequence of `InitInode` and `NewNode` calls; the second component lists the
inodes of the nodes created, in creation order. -/
def runAlloc : State → List AllocOp → State × List Nat
  | s, [] => (s, [])
  | s, .init i :: ops => runAlloc (InitInode s i) ops
  | s, .new a :: ops =>
    let r := NewNode s a.inode a.parent a.name a.isdir a.isroot
    ((runAlloc r.1 ops).1, (r.1.heap r.2).inode :: (runAlloc r.1 ops).2)

/-- A call that changes the registry. -/
inductive RegOp where
  | newNode (a : NewArgs)
  | rename (n onode : Nat) (ndir : Option Nat) (nname : String)
  | remove (n : Nat)

/-- Effect of one registry call. -/
def RegOp.apply (s : State) : RegOp → State
  | .newNode a => (NewNode s a.inode a.parent a.name a.isdir a.isroot).1
  | .rename n onode ndir nname => Node.Rename s n onode ndir nname
  | .remove n => Node.Remove s n

/-- Run a sequence of registry calls. -/
def runReg (s : State) (ops : List RegOp) : State :=
  ops.foldl RegOp.apply s

/-- The node at address `p` is still stored in the registry under some key. -/
def stored (s : State) (p : Nat) : Prop :=
  ∃ k, s.inodeCache k = some p

/-- Property P1 of the specification: every stored node is found under its own inode
and, when it has a parent, under its own name in that parent. -/
def registryConsistent (s : State) : Prop :=
  ∀ p, stored s p →
    GetNodeByID s (s.heap p).inode = some p
      ∧ ∀ q, (s.heap p).parent = some q → Node.GetChild s q (s.heap p).name = some p

/-- The name `NewNode` gives to the node it creates. -/
def NewArgs.nodeName (a : NewArgs) : String :=
  if a.isdir && a.isroot then Base a.name else a.name

/-- The discipline the callers of the registry follow: `NewNode` is called with inode
argument 0, before the 64-bit counter wraps, under an existing parent that has no
registered child of that name (every call site asks `GetChild` first); `Rename` is
invoked on the current parent of a child registered there, towards an existing directory
and a name not registered for another node; `Remove` is called on a registered node. -/
def RegOp.guard (s : State) : RegOp → Prop
  | .newNode a =>
    a.inode = 0 ∧ s.ginode + 1 < 2 ^ 64
      ∧ ∀ q, a.parent = some q → q < s.nextPtr ∧ Node.GetChild s q a.nodeName = none
  | .rename n onode ndir nname =>
    (s.heap onode).parent = some n ∧ Node.GetChild s n (s.heap onode).name = some onode
      ∧ ∀ b, ndir = some b →
        b < s.nextPtr ∧ (Node.GetChild s b nname = none ∨ Node.GetChild s b nname = some onode)
  | .remove n => GetNodeByID s (s.heap n).inode = some n

/-- Every call of the sequence is made within the discipline `RegOp.guard`. -/
def guardedRun : State → List RegOp → Prop
  | _, [] => True
  | s, op :: ops => op.guard s ∧ guardedRun (op.apply s) ops

/-- The invariant of the registry under guarded calls: every key is the inode key or
the child key of the node stored under it, stored nodes are consistent (P1), inodes do
not exceed the counter, and parent pointers refer to allocated nodes. -/
structure RegInv (s : State) : Prop where
  keys : ∀ k p, s.inodeCache k = some p →
    p < s.nextPtr ∧ (k = FormatUint (s.heap p).inode
      ∨ ∃ q, (s.heap p).parent = some q ∧ k = childKey (s.heap q).inode (s.heap p).name)
  consistent : registryConsistent s
  bound : ∀ p, p < s.nextPtr → (s.heap p).inode ≤ s.ginode
  parents : ∀ p q, p < s.nextPtr → (s.heap p).parent = some q → q < s.nextPtr

/-- Example run: create the root `/srv/data`, the directory `a` and the file `b.txt` in
`a`, move `b.txt` to the root as `c.txt`, and remove `a`. -/
def exOps : List RegOp :=
  [.newNode ⟨0, none, "/srv/data", true, true⟩, .newNode ⟨0, some 0, "a", true, false⟩,
    .newNode ⟨0, some 1, "b.txt", false, false⟩, .rename 1 2 (some 0) "c.txt", .remove 1]

/-- Example state: only the root of the mount of `/srv/data` at `/mnt/x` exists. -/
def exRoot : State :=
  (SSHFS.Root (InitInode State.init 100) "/srv/data" "/mnt/x").1

/-- Example remote: `Stat` finds nothing, listings are empty, every change succeeds. -/
def okRemote : Remote :=
  { Stat := fun _ => .error .notExist, ReadDir := fun _ => .ok [], Mkdir := fun _ => none,
    Create := fun _ => none, Chmod := fun _ _ => none, Chown := fun _ _ _ => none,
    Remove := fun _ => none, RemoveDirectory := fun _ => none }

/-- Example remote on which `Stat` finds a directory named `a`. -/
def statRemote : Remote :=
  { okRemote with Stat := fun _ => .ok { name := "a", isDir := true } }

/-- Example state: the root (address 0) with the directory `a` (address 1) made by
`Dir.Mkdir`, so that the `Dirs` list of the root is `[1]`. -/
def exMkdir : State :=
  (Dir.Mkdir okRemote 1 exRoot 0 "a" 493 0 0).1

/-- Every child registered under the directory `d` is an allocated node that carries
the name it is registered under (a consequence of the registry invariant `RegInv`). -/
def childrenNamed (s : State) (d : Nat) : Prop :=
  ∀ name c, Node.GetChild s d name = some c → c < s.nextPtr ∧ (s.heap c).name = name

/-- The entry `ReadDirAll` emits for the child `c` and the listing entry `f`. -/
def direntOf (h : Nat → Node) (c : Nat) (f : FileInfo) : Dirent :=
  { Name := (h c).name, Inode := (h c).inode, isDirType := f.isDir }

/-- Example remote whose listing of every directory is `a/` and `b.txt`. -/
def listRemote : Remote :=
  { okRemote with ReadDir := fun _ => .ok [⟨"a", true⟩, ⟨"b.txt", false⟩] }

/-- Example state for renames: below the root (address 0) the directories `a`
(address 1) and `b` (address 2) made by `Mkdir`, the file `t` (address 3) made by
`Create` in `a` and the file `u` (address 4) made by `Create` in `b`; so `a.Files = [3]`
and `b.Files = [4]`. -/
def exMove : State :=
  let s1 := (Dir.Mkdir okRemote 1 exRoot 0 "a" 493 0 0).1
  let s2 := (Dir.Mkdir okRemote 1 s1 0 "b" 493 0 0).1
  let s3 := (Dir.Create okRemote 2 s2 1 "t" 420 0 0).1
  (Dir.Create okRemote 2 s3 2 "u" 420 0 0).1

/-- The fields of a node other than its two child lists. -/
def Node.core (n : Node) : Nat × String × String × String × Bool × Bool × Option Nat :=
  (n.inode, n.name, n.path, n.localpath, n.isdir, n.isroot, n.parent)

/-! ## File nodes (`fs/file.go`) -/

/-- Constant `fuse.OpenAccessModeMask` (`syscall.O_ACCMODE`). -/
def OpenAccessModeMask : Nat := 3

/-- Constant `fuse.OpenReadOnly` (`syscall.O_RDONLY`). -/
def OpenReadOnly : Nat := 0

/-- Constant `fuse.OpenWriteOnly` (`syscall.O_WRONLY`). -/
def OpenWriteOnly : Nat := 1

/-- Constant `fuse.OpenReadWrite` (`syscall.O_RDWR`). -/
def OpenReadWrite : Nat := 2

/-- Constant `fuse.OpenAppend` (`syscall.O_APPEND` on Linux). -/
def OpenAppend : Nat := 1024

/-- Constant `fuse.OpenPurgeAttr` (`1 << 30`). -/
def OpenPurgeAttr : Nat := 2 ^ 30

/-- Library method `OpenFlags.IsReadOnly`. -/
def IsReadOnly (fl : Nat) : Bool := fl &&& OpenAccessModeMask == OpenReadOnly

/-- Library method `OpenFlags.IsWriteOnly`. -/
def IsWriteOnly (fl : Nat) : Bool := fl &&& OpenAccessModeMask == OpenWriteOnly

/-- The file side of the SFTP server: the answer to `OpenFile(path, flags)` (a remote
file) and the bytes that `Seek(offset, 0)` followed by `Read` into a buffer of the given
length delivers on a remote file. -/
structure FileRemote where
  OpenFile : String → Nat → Except RemoteErr Nat
  ReadAt : Nat → Nat → Nat → List Nat

/-- A `File` value used as a handle: its node and its open remote file (nil when absent). -/
structure FileHandle where
  node : Nat
  file : Option Nat
  deriving DecidableEq

/-- Source `File.Open`.  The third component is `resp.Flags` (zero in a fresh reply). -/
def File.Open (fr : FileRemote) (fuel : Nat) (s : State) (f : Nat) (flags : Nat) :
    State × Result FileHandle × Nat :=
  if flags &&& OpenAppend = OpenAppend then (s, .error .ENOTSUP, 0)
  else
    match Node.Path s.heap fuel f with
    | .ok p =>
      let s1 := s.logCall (.openFile p flags)
      match fr.OpenFile p flags with
      | .error err => (s1, .error (.remote err), 0)
      | .ok file =>
        let fh : FileHandle := { node := f, file := some file }
        if IsReadOnly flags then (s1, .ok fh, 0)
        else if IsWriteOnly flags then (s1, .ok fh, OpenPurgeAttr)
        else (s1, .error .ENOTSUP, 0)
    | .error e => (s, .error e, 0)
    | .panic => (s, .panic, 0)
    | .timeout => (s, .timeout, 0)

/-- The call `f.file.Read(buf)`: the bytes delivered overwrite the front of the buffer. -/
def readInto (buf got : List Nat) : List Nat :=
  got.take buf.length ++ buf.drop (got.take buf.length).length

/-- Source `File.Read`: open the remote file if the handle has none, seek, allocate
`resp.Data = make([]byte, req.Size)` and read into it; the byte count and the error of
`Read` are discarded.  The result is the handle and `resp.Data`. -/
def File.Read (fr : FileRemote) (fuel : Nat) (s : State) (fh : FileHandle)
    (offset size flags : Nat) : State × FileHandle × Result (List Nat) :=
  match fh.file with
  | some file =>
    (s, fh, .ok (readInto (List.replicate size 0) (fr.ReadAt file offset size)))
  | none =>
    match Node.Path s.heap fuel fh.node with
    | .ok p =>
      let s1 := s.logCall (.openFile p flags)
      match fr.OpenFile p flags with
      | .error err => (s1, fh, .error (.remote err))
      | .ok file =>
        (s1, { fh with file := some file },
          .ok (readInto (List.replicate size 0) (fr.ReadAt file offset size)))
    | .error e => (s, fh, .error e)
    | .panic => (s, fh, .panic)
    | .timeout => (s, fh, .timeout)

/-! ## The volume driver (`docker/driver.go`) -/

/-- Bytes that `url.QueryEscape` leaves as they are: ASCII letters, digits and `-_.~`
(`shouldEscape(c, encodeQueryComponent)` is false). -/
def unreserved (c : Char) : Bool :=
  (97 ≤ c.toNat && c.toNat ≤ 122) || (65 ≤ c.toNat && c.toNat ≤ 90)
    || (48 ≤ c.toNat && c.toNat ≤ 57) || c = '-' || c = '_' || c = '.' || c = '~'

/-- The upper-case hexadecimal digit of `d < 16`. -/
def hexDigit (d : Nat) : Char :=
  if d < 10 then Char.ofNat (48 + d) else Char.ofNat (55 + d)

/-- The escape `%XX` of one byte. -/
def escapeByte (b : UInt8) : List Char :=
  ['%', hexDigit (b.toNat / 16), hexDigit (b.toNat % 16)]

/-- The escapes of a sequence of bytes. -/
def escapeBytes : List UInt8 → List Char
  | [] => []
  | b :: bs => escapeByte b ++ escapeBytes bs

/-- What `url.QueryEscape` writes for one character: itself when unreserved, `+` for a
space, and `%XX` for each byte of its UTF-8 encoding otherwise. -/
def escapeChar (c : Char) : List Char :=
  if unreserved c then [c]
  else if c = ' ' then ['+']
  else escapeBytes (String.utf8EncodeChar c)

/-- The escapes of a sequence of characters. -/
def escapeChars : List Char → List Char
  | [] => []
  | c :: cs => escapeChar c ++ escapeChars cs

/-- Model of `url.QueryEscape`. -/
def QueryEscape (s : String) : String := String.mk (escapeChars s.data)

/-- The fields of `Config` read by the driver (`Config` is declared outside the given
sources; the SSH settings play no part here). -/
structure Config where
  Root : String
  MountPoint : String

/-- Modelled from the spec: the mount session held in `servers` (`Server` and `NewServer`
are declared outside the given sources): its connection count and whether its bridge is
serving. -/
structure Server where
  connections : Int
  mountpoint : String
  root : String
  serving : Bool
  deriving DecidableEq

/-- A call the driver makes on a mount session or on its own SFTP client. -/
inductive DriverCall where
  | sessionMount (mount : String)
  | sessionUnmount (mount : String)
  | removeDirectory (path : String)
  | sftpClose
  deriving DecidableEq

/-- Error returned by a driver operation. -/
inductive DriverErr where
  | os (code : Nat)
  | notDirectory (mount : String)
  | notFound (mount : String)
  deriving DecidableEq

/-- Answer of `os.Lstat`. -/
inductive LstatResult where
  | notExist
  | failed (code : Nat)
  | dir
  | notDir
  deriving DecidableEq

/-- The environment of the driver: the local file system, the session factory and the
answer of a session to `Unmount` (`none` is success). -/
structure Host where
  Lstat : String → LstatResult
  MkdirAll : String → Option Nat
  NewServer : String → String → Option Nat
  SessionUnmount : String → Option Nat

/-- The `Driver` struct: configuration, the `servers` map and the log of calls made. -/
structure Driver where
  config : Config
  servers : String → Option Server
  calls : List DriverCall

/-- Source `Driver.mountpoint`. -/
def Driver.mountpoint (d : Driver) (name : String) : String :=
  Join [d.config.MountPoint, QueryEscape name]

/-- Source `Driver.Path`: the driver after the call and the mountpoint in the reply. -/
def Driver.Path (d : Driver) (name : String) : Driver × String :=
  (d, d.mountpoint name)

/-- Assign `d.servers[mount]`. -/
def Driver.setServer (d : Driver) (mount : String) (sv : Server) : Driver :=
  { d with servers := fun m => if m = mount then some sv else d.servers m }

/-- Modelled from the spec: the session `NewServer` returns is stored with count 1, and
`go server.Mount()` starts serving it. -/
def newSession (mount root : String) : Server :=
  { connections := 1, mountpoint := mount, root := root, serving := true }

/-- The part of `Driver.Mount` after the `servers` lookup: make sure the local directory
exists and is a directory, create the session, start it and store it. -/
def Driver.Mount.create (h : Host) (d : Driver) (name mount : String) :
    Driver × Except DriverErr String :=
  let start : Driver × Except DriverErr String :=
    match h.NewServer mount (Join [d.config.Root, name]) with
    | some e => (d, .error (.os e))
    | none =>
      ({ d.setServer mount (newSession mount (Join [d.config.Root, name])) with
          calls := d.calls ++ [.sessionMount mount] }, .ok mount)
  match h.Lstat mount with
  | .notExist =>
    match h.MkdirAll mount with
    | some e => (d, .error (.os e))
    | none => start
  | .failed e => (d, .error (.os e))
  | .notDir => (d, .error (.notDirectory mount))
  | .dir => start

/-- Source `Driver.Mount`. -/
def Driver.Mount (h : Host) (d : Driver) (name : String) : Driver × Except DriverErr String :=
  let mount := d.mountpoint name
  match d.servers mount with
  | some server =>
    if server.connections > 0 then
      (d.setServer mount { server with connections := server.connections + 1 }, .ok mount)
    else Driver.Mount.create h d name mount
  | none => Driver.Mount.create h d name mount

/-- Source `Driver.Unmount` (`none` is success). -/
def Driver.Unmount (h : Host) (d : Driver) (name : String) : Driver × Option DriverErr :=
  let mount := d.mountpoint name
  let finish (d1 : Driver) : Driver × Option DriverErr :=
    ({ d1 with calls := d1.calls ++ [.removeDirectory (Join [d.config.Root, name]), .sftpClose] },
      none)
  match d.servers mount with
  | some server =>
    if server.connections = 1 then
      let d1 : Driver := { d with calls := d.calls ++ [.sessionUnmount mount] }
      match h.SessionUnmount mount with
      | some e => (d1, some (.os e))
      | none =>
        finish (d1.setServer mount
          { server with connections := server.connections - 1, serving := false })
    else finish d
  | none => (d, some (.notFound mount))

/-- Example state: the root (address 0) with the directory `a` (address 1) made by
`Dir.Mkdir` and then enumerated by `Dir.ReadDirAll` with an empty listing, so that both
child lists of `a` are present and empty. -/
def exEmptyDir : State :=
  (Dir.ReadDirAll okRemote 1 exMkdir 1).1

/-- The discipline that keeps the node tree a tree: `NewNode` creates a root, or a node
under an allocated parent; `Rename` moves a non-root node under an allocated node whose
parent chain does not pass through the moved node (so not under itself or one of its
descendants); `Remove` is unrestricted. -/
def RegOp.treeGuard (s : State) : RegOp → Prop
  | .newNode a => a.isroot = false → ∃ q, a.parent = some q ∧ q < s.nextPtr
  | .rename _ onode ndir _ =>
    (s.heap onode).isroot = false →
      ∃ b, ndir = some b ∧ b < s.nextPtr ∧ ∀ below r, ascends s.heap b below r → onode ∉ below
  | .remove _ => True

/-- Every call of the sequence is made within the discipline `RegOp.treeGuard`. -/
def treeGuardedRun : State → List RegOp → Prop
  | _, [] => True
  | s, op :: ops => op.treeGuard s ∧ treeGuardedRun (op.apply s) ops

/-- From every allocated node the parent chain reaches a root through allocated nodes. -/
def TreeInv (s : State) : Prop :=
  ∀ p, p < s.nextPtr →
    ∃ below r, ascends s.heap p below r ∧ (∀ x ∈ below, x < s.nextPtr) ∧ r < s.nextPtr

/-- Example file server: every open succeeds with the remote file 7, and a read
delivers the five bytes of `hello` whatever the buffer length. -/
def helloFiles : FileRemote :=
  { OpenFile := fun _ _ => .ok 7, ReadAt := fun _ _ _ => [104, 101, 108, 108, 111] }

/-- Example host: every directory exists, every session can be created and unmounted. -/
def okHost : Host :=
  { Lstat := fun _ => .dir, MkdirAll := fun _ => none, NewServer := fun _ _ => none,
    SessionUnmount := fun _ => none }

/-- Example driver: remote root `/tmp`, local root `/mnt`, no session yet. -/
def exDriver : Driver :=
  { config := { Root := "/tmp", MountPoint := "/mnt" }, servers := fun _ => none, calls := [] }

/-- Run `Driver.Mount` for each name of the list, in order. -/
def mountAll (h : Host) (d : Driver) (names : List String) : Driver :=
  names.foldl (fun acc name => (Driver.Mount h acc name).1) d

/-- Run `Driver.Unmount` for each name of the list, in order. -/
def unmountAll (h : Host) (d : Driver) (names : List String) : Driver :=
  names.foldl (fun acc name => (Driver.Unmount h acc name).1) d

/-! ## Auxiliary facts -/

theorem set_mid (a : List String) (x v : String) (t : List String) :
    (a ++ x :: t).set a.length v = a ++ v :: t := by
  induction a with
  | nil => rfl
  | cons h a ih => simp [List.set, ih]

theorem getD_mid (a : List String) (x : String) (t : List String) :
    (a ++ x :: t).getD a.length "" = x := by
  induction a with
  | nil => rfl
  | cons h a ih => simpa [List.getD] using ih

/-- The swap loop started on the middle segment `m` of `a ++ m ++ b` reverses `m` in
place. -/
theorem reverse_loop_eq (fuel : Nat) : ∀ (a m b : List String), m.length ≤ 2 * fuel + 1 →
    reverse.loop fuel (a ++ m ++ b) a.length (a.length + m.length - 1) = a ++ m.reverse ++ b := by
  induction fuel with
  | zero =>
    intro a m b hm
    have : m.reverse = m := by
      match m, hm with
      | [], _ => rfl
      | [x], _ => rfl
    simp [reverse.loop, this]
  | succ fuel ih =>
    intro a m b hm
    match m, hm with
    | [], _ => simp [reverse.loop]
    | [x], _ => simp [reverse.loop]
    | x :: y :: t, hm =>
      rcases List.eq_nil_or_concat (y :: t) with h | ⟨m1, z, h⟩
      · simp at h
      · rw [List.concat_eq_append] at h
        have hlen : (y :: t).length = m1.length + 1 := by rw [h]; simp
        rw [h]
        have hj : a.length + (x :: (m1 ++ [z])).length - 1 = (a ++ x :: m1).length := by
          simp
        have hlt : a.length < a.length + (x :: (m1 ++ [z])).length - 1 := by
          simp
        rw [reverse.loop, if_pos hlt, hj]
        have e1 : a ++ x :: (m1 ++ [z]) ++ b = (a ++ x :: m1) ++ z :: b := by simp
        have g1 : (a ++ x :: (m1 ++ [z]) ++ b).getD (a ++ x :: m1).length "" = z := by
          rw [e1]; exact getD_mid _ _ _
        have e2 : a ++ x :: (m1 ++ [z]) ++ b = a ++ x :: (m1 ++ [z] ++ b) := by simp
        have g2 : (a ++ x :: (m1 ++ [z]) ++ b).getD a.length "" = x := by
          rw [e2]; exact getD_mid _ _ _
        rw [g1, g2, e2, set_mid]
        have e3 : a ++ z :: (m1 ++ [z] ++ b) = (a ++ z :: m1) ++ z :: b := by simp
        have hl2 : (a ++ x :: m1).length = (a ++ z :: m1).length := by simp
        rw [e3, hl2, set_mid]
        have e4 : a ++ z :: m1 ++ x :: b = (a ++ [z]) ++ m1 ++ (x :: b) := by simp
        have hi : a.length + 1 = (a ++ [z]).length := by simp
        have hj2 : (a ++ z :: m1).length - 1 = (a ++ [z]).length + m1.length - 1 := by
          simp
        rw [e4, hi, hj2, ih (a ++ [z]) m1 (x :: b) (by simp at hm hlen; omega)]
        simp

/-- The source loop `reverse` computes list reversal. -/
theorem reverse_eq (s : List String) : reverse s = s.reverse := by
  have h := reverse_loop_eq s.length [] s [] (by omega)
  simpa [reverse] using h

/-! ## C1: path reconstruction -/

theorem climb_ascends (field : Node → String) (h : Nat → Node) (r : Nat) :
    ∀ (xs : List Nat) (q : Nat) (acc : List String) (fuel : Nat),
      ascends h q xs r → xs.length < fuel →
      Node.climb field h fuel (h q) acc
        = .ok (acc ++ xs.map (fun p => (h p).name) ++ [field (h r)]) := by
  intro xs
  induction xs with
  | nil =>
    intro q acc fuel hc hf
    obtain ⟨rfl, hr⟩ := hc
    obtain ⟨k, rfl⟩ : ∃ k, fuel = k + 1 := ⟨fuel - 1, by simp at hf; omega⟩
    simp [Node.climb, hr]
  | cons x xs ih =>
    intro q acc fuel hc hf
    obtain ⟨rfl, hx, p, hp, hrest⟩ := hc
    obtain ⟨k, rfl⟩ : ∃ k, fuel = k + 1 := ⟨fuel - 1, by simp at hf; omega⟩
    have hk : xs.length < k := by simp at hf; omega
    simp [Node.climb, hx, hp, ih p _ k hrest hk]

/-- C1. For a node `n` whose parent chain reaches the root `r` through the non-root
nodes `below` (`n` first), `Path(n)` is `filepath.Join` of `r.path` followed by the names
of `below` in root-to-`n` order, and `LocalPath(n)` is the same with `r.localpath`; for
the root itself (`below` empty) both return the stored string unchanged.  Fuel equal to
the length of the chain is enough for the loop to finish. -/
theorem Node.Path_eq_join (h : Nat → Node) (fuel : Nat) (n r : Nat) (below : List Nat)
    (hc : ascends h n below r) (hf : below.length ≤ fuel) :
    Node.Path h fuel n
        = .ok (match below with
          | [] => (h r).path
          | _ :: _ => Join ((h r).path :: namesFromRoot h below))
      ∧ Node.LocalPath h fuel n
        = .ok (match below with
          | [] => (h r).localpath
          | _ :: _ => Join ((h r).localpath :: namesFromRoot h below)) := by
  cases below with
  | nil =>
    obtain ⟨rfl, hr⟩ := hc
    simp [Node.Path, Node.LocalPath, hr]
  | cons x xs =>
    obtain ⟨rfl, hx, p, hp, hrest⟩ := hc
    have hk : xs.length < fuel := by simpa using hf
    simp [Node.Path, Node.LocalPath, hx, hp, climb_ascends _ h r xs p _ fuel hrest hk,
      reverse_eq, namesFromRoot]

theorem Node.Path_eq_join_witness :
    Node.Path exTree.heap 2 2 = .ok "/srv/data/a/b.txt"
      ∧ Node.LocalPath exTree.heap 2 2 = .ok "/mnt/x/a/b.txt" :=
  Node.Path_eq_join exTree.heap 2 2 0 [2, 1]
    ⟨rfl, by decide, 1, by decide, rfl, by decide, 0, by decide, rfl, by decide⟩ (by decide)

/-! ## Registry keys -/

/-- The character code of a decimal digit. -/
theorem digitChar_toNat (d : Nat) (hd : d < 10) : (digitChar d).toNat = 48 + d := by
  interval_cases d <;> rfl

theorem formatDigits_digit (fuel : Nat) : ∀ (n : Nat) (c : Char),
    c ∈ formatDigits fuel n → ∃ d, d < 10 ∧ c = digitChar d := by
  induction fuel with
  | zero => intro n c hc; simp [formatDigits] at hc
  | succ fuel ih =>
    intro n c hc
    unfold formatDigits at hc
    split at hc
    · simp at hc; exact ⟨n, by assumption, hc⟩
    · rcases List.mem_append.1 hc with h | h
      · exact ih _ _ h
      · simp at h; exact ⟨n % 10, Nat.mod_lt _ (by decide), h⟩

theorem formatDigits_no_underscore (fuel n : Nat) : '_' ∉ formatDigits fuel n := by
  intro hc
  obtain ⟨d, hd, he⟩ := formatDigits_digit fuel n _ hc
  have h1 := digitChar_toNat d hd
  rw [← he] at h1
  have h2 : ('_' : Char).toNat = 95 := rfl
  omega

theorem formatDigits_value (fuel : Nat) : ∀ n : Nat, n < fuel →
    (formatDigits fuel n).foldl (fun acc c => acc * 10 + (c.toNat - 48)) 0 = n := by
  induction fuel with
  | zero => intro n hn; omega
  | succ fuel ih =>
    intro n hn
    unfold formatDigits
    split
    · rename_i h10
      simp [digitChar_toNat n h10]
    · rename_i h10
      have hlt : n / 10 < fuel := by omega
      rw [List.foldl_append, ih _ hlt]
      simp [digitChar_toNat (n % 10) (Nat.mod_lt _ (by decide))]
      omega

/-- Distinct numbers have distinct decimal representations. -/
theorem FormatUint_injective {a b : Nat} (h : FormatUint a = FormatUint b) : a = b := by
  have h1 : formatDigits (a + 1) a = formatDigits (b + 1) b := by
    have := congrArg String.data h
    simpa [FormatUint] using this
  have ha := formatDigits_value (a + 1) a (by omega)
  have hb := formatDigits_value (b + 1) b (by omega)
  rw [h1] at ha
  omega

theorem split_at_sep {c : Char} : ∀ (xs ys xs2 ys2 : List Char), c ∉ xs → c ∉ xs2 →
    xs ++ c :: ys = xs2 ++ c :: ys2 → xs = xs2 ∧ ys = ys2 := by
  intro xs
  induction xs with
  | nil =>
    intro ys xs2 ys2 _ h2 h
    cases xs2 with
    | nil => simpa using h
    | cons x xs2 =>
      simp at h
      exact absurd (by rw [h.1]; simp) h2
  | cons x xs ih =>
    intro ys xs2 ys2 h1 h2 h
    cases xs2 with
    | nil =>
      simp at h
      exact absurd (by rw [← h.1]; simp) h1
    | cons y xs2 =>
      simp at h
      obtain ⟨hxy, hr⟩ := h
      have := ih ys xs2 ys2 (fun hm => h1 (List.mem_cons_of_mem _ hm))
        (fun hm => h2 (List.mem_cons_of_mem _ hm)) hr
      simp [hxy, this.1, this.2]

theorem childKey_data (p : Nat) (a : String) :
    (childKey p a).data = formatDigits (p + 1) p ++ '_' :: a.data := by
  simp [childKey, FormatUint, String.data_append]

/-- A child key determines the parent inode and the name. -/
theorem childKey_injective {p q : Nat} {a b : String} (h : childKey p a = childKey q b) :
    p = q ∧ a = b := by
  have hd : (childKey p a).data = (childKey q b).data := by rw [h]
  rw [childKey_data, childKey_data] at hd
  obtain ⟨h1, h2⟩ := split_at_sep _ _ _ _ (formatDigits_no_underscore _ _)
    (formatDigits_no_underscore _ _) hd
  refine ⟨FormatUint_injective (by simp [FormatUint, h1]), String.ext h2⟩

/-- A child key is never an inode key. -/
theorem childKey_ne_FormatUint (p : Nat) (a : String) (i : Nat) :
    childKey p a ≠ FormatUint i := by
  intro h
  have hd : (childKey p a).data = (FormatUint i).data := by rw [h]
  rw [childKey_data] at hd
  have : '_' ∈ (FormatUint i).data := by rw [← hd]; simp
  exact formatDigits_no_underscore _ _ (by simpa [FormatUint] using this)

/-! ## Basic facts about `Save` and `NewNode` -/

@[simp] theorem Save_heap (s : State) (n : Nat) : (Node.Save s n).heap = s.heap := by
  cases h : (s.heap n).parent <;> simp [Node.Save, h]

@[simp] theorem Save_ginode (s : State) (n : Nat) : (Node.Save s n).ginode = s.ginode := by
  cases h : (s.heap n).parent <;> simp [Node.Save, h]

@[simp] theorem Save_nextPtr (s : State) (n : Nat) : (Node.Save s n).nextPtr = s.nextPtr := by
  cases h : (s.heap n).parent <;> simp [Node.Save, h]

@[simp] theorem Save_freeInode (s : State) (n : Nat) :
    (Node.Save s n).freeInode = s.freeInode := by
  cases h : (s.heap n).parent <;> simp [Node.Save, h]

@[simp] theorem Save_calls (s : State) (n : Nat) : (Node.Save s n).calls = s.calls := by
  cases h : (s.heap n).parent <;> simp [Node.Save, h]

@[simp] theorem NewNode_snd (s : State) (i : Nat) (parent : Option Nat) (name : String)
    (isdir isroot : Bool) : (NewNode s i parent name isdir isroot).2 = s.nextPtr := rfl

@[simp] theorem NewNode_ginode (s : State) (i : Nat) (parent : Option Nat) (name : String)
    (isdir isroot : Bool) :
    (NewNode s i parent name isdir isroot).1.ginode = (s.ginode + 1) % 2 ^ 64 := by
  simp [NewNode, genInode]

@[simp] theorem NewNode_nextPtr (s : State) (i : Nat) (parent : Option Nat) (name : String)
    (isdir isroot : Bool) :
    (NewNode s i parent name isdir isroot).1.nextPtr = s.nextPtr + 1 := by
  simp [NewNode, genInode]

@[simp] theorem NewNode_freeInode (s : State) (i : Nat) (parent : Option Nat) (name : String)
    (isdir isroot : Bool) :
    (NewNode s i parent name isdir isroot).1.freeInode = s.freeInode := by
  simp [NewNode, genInode]

@[simp] theorem NewNode_calls (s : State) (i : Nat) (parent : Option Nat) (name : String)
    (isdir isroot : Bool) :
    (NewNode s i parent name isdir isroot).1.calls = s.calls := by
  simp [NewNode, genInode]

/-- Nodes that already exist are not changed by `NewNode`. -/
theorem NewNode_heap_old (s : State) (i : Nat) (parent : Option Nat) (name : String)
    (isdir isroot : Bool) (p : Nat) (hp : p ≠ s.nextPtr) :
    (NewNode s i parent name isdir isroot).1.heap p = s.heap p := by
  simp [NewNode, genInode, Function.update_noteq hp]

/-- The node created by a `NewNode` call with inode argument 0 that is not a root. -/
theorem NewNode_heap_new (s : State) (parent : Option Nat) (name : String) (isdir : Bool) :
    (NewNode s 0 parent name isdir false).1.heap s.nextPtr
      = { inode := (s.ginode + 1) % 2 ^ 64, name := name, path := "", localpath := "",
          isdir := isdir, isroot := false, parent := parent, Files := none, Dirs := none } := by
  simp [NewNode, genInode]

/-- With inode argument 0 the new node carries the incremented counter. -/
theorem NewNode_inode (s : State) (parent : Option Nat) (name : String)
    (isdir isroot : Bool) :
    ((NewNode s 0 parent name isdir isroot).1.heap s.nextPtr).inode
      = (s.ginode + 1) % 2 ^ 64 := by
  cases isdir <;> cases isroot <;> simp [NewNode, genInode]

/-! ## C2: consistency of the registry -/

theorem Save_cache_none (s : State) (n : Nat) (h : (s.heap n).parent = none) :
    (Node.Save s n).inodeCache = Cache.Set s.inodeCache (FormatUint (s.heap n).inode) n := by
  simp [Node.Save, h]

theorem Save_cache_some (s : State) (n q : Nat) (h : (s.heap n).parent = some q) :
    (Node.Save s n).inodeCache
      = Cache.Set (Cache.Set s.inodeCache (FormatUint (s.heap n).inode) n)
          (childKey (s.heap q).inode (s.heap n).name) n := by
  simp [Node.Save, h]

/-- What `NewNode` with inode argument 0 stores: the new address under the new child key
and the new inode key, everything else as before. -/
theorem NewNode_cache (s : State) (a : NewArgs) (ha : a.inode = 0)
    (hq : ∀ q, a.parent = some q → q < s.nextPtr) (k : String) :
    (NewNode s a.inode a.parent a.name a.isdir a.isroot).1.inodeCache k
      = if (∃ q, a.parent = some q ∧ k = childKey (s.heap q).inode a.nodeName)
            ∨ k = FormatUint ((s.ginode + 1) % 2 ^ 64) then some s.nextPtr
        else s.inodeCache k := by
  obtain ⟨i, parent, name, isdir, isroot⟩ := a
  simp only at ha hq
  subst ha
  cases parent with
  | none =>
    cases isdir <;> cases isroot <;>
      simp [NewNode, genInode, Node.Save, Cache.Set, NewArgs.nodeName]
  | some q =>
    have hne : q ≠ s.nextPtr := Nat.ne_of_lt (hq q rfl)
    cases isdir <;> cases isroot <;>
      simp [NewNode, genInode, Node.Save, Cache.Set, NewArgs.nodeName,
        Function.update_noteq hne] <;>
      split <;> simp_all

/-- The record of the node created by `NewNode` with inode argument 0. -/
theorem NewNode_record (s : State) (a : NewArgs) (ha : a.inode = 0) :
    ((NewNode s a.inode a.parent a.name a.isdir a.isroot).1.heap s.nextPtr).inode
        = (s.ginode + 1) % 2 ^ 64
      ∧ ((NewNode s a.inode a.parent a.name a.isdir a.isroot).1.heap s.nextPtr).parent = a.parent
      ∧ ((NewNode s a.inode a.parent a.name a.isdir a.isroot).1.heap s.nextPtr).name
        = a.nodeName := by
  obtain ⟨i, parent, name, isdir, isroot⟩ := a
  simp only at ha
  subst ha
  cases isdir <;> cases isroot <;> simp [NewNode, genInode, NewArgs.nodeName]

theorem RegInv_newNode (s : State) (a : NewArgs) (hI : RegInv s)
    (hg : (RegOp.newNode a).guard s) : RegInv ((RegOp.newNode a).apply s) := by
  obtain ⟨ha, hw, hpar⟩ := hg
  have hmod : (s.ginode + 1) % 2 ^ 64 = s.ginode + 1 := Nat.mod_eq_of_lt hw
  have hq : ∀ q, a.parent = some q → q < s.nextPtr := fun q h => (hpar q h).1
  have hC := NewNode_cache s a ha hq
  obtain ⟨hRi, hRp, hRn⟩ := NewNode_record s a ha
  have hOld := NewNode_heap_old s a.inode a.parent a.name a.isdir a.isroot
  have hnp : (NewNode s a.inode a.parent a.name a.isdir a.isroot).1.nextPtr = s.nextPtr + 1 :=
    NewNode_nextPtr _ _ _ _ _ _
  have hgi : (NewNode s a.inode a.parent a.name a.isdir a.isroot).1.ginode = s.ginode + 1 := by
    rw [NewNode_ginode, hmod]
  rw [hmod] at hC hRi
  simp only [RegOp.apply]
  generalize (NewNode s a.inode a.parent a.name a.isdir a.isroot).1 = t
    at hC hRi hRp hRn hOld hnp hgi
  refine ⟨?_, ?_, ?_, ?_⟩
  · intro k p hk
    rw [hC] at hk
    split at hk
    · rename_i hc
      obtain rfl : s.nextPtr = p := by simpa using hk
      refine ⟨by omega, ?_⟩
      rcases hc with ⟨q, hq1, hq2⟩ | hc
      · right
        refine ⟨q, by rw [hRp, hq1], ?_⟩
        rw [hOld q (Nat.ne_of_lt (hq q hq1)), hRn, hq2]
      · left; rw [hRi, hc]
    · obtain ⟨hp, hkey⟩ := hI.keys k p hk
      refine ⟨by omega, ?_⟩
      rw [hOld p (Nat.ne_of_lt hp)]
      rcases hkey with h | ⟨q, hq1, hq2⟩
      · exact Or.inl h
      · right
        exact ⟨q, hq1, by rw [hOld q (Nat.ne_of_lt (hI.parents p q hp hq1)), hq2]⟩
  · rintro p ⟨k, hk⟩
    rw [hC] at hk
    split at hk
    · obtain rfl : s.nextPtr = p := by simpa using hk
      refine ⟨?_, ?_⟩
      · simp only [GetNodeByID]
        rw [hC, hRi, if_pos (Or.inr rfl)]
      · intro q hq1
        rw [hRp] at hq1
        simp only [Node.GetChild]
        rw [hC, hOld q (Nat.ne_of_lt (hq q hq1)), hRn, if_pos (Or.inl ⟨q, hq1, rfl⟩)]
    · obtain ⟨hp, _⟩ := hI.keys k p hk
      obtain ⟨hc1, hc2⟩ := hI.consistent p ⟨k, hk⟩
      rw [hOld p (Nat.ne_of_lt hp)]
      refine ⟨?_, ?_⟩
      · simp only [GetNodeByID] at hc1 ⊢
        rw [hC, if_neg, hc1]
        rintro (⟨q, _, hq2⟩ | h)
        · exact childKey_ne_FormatUint _ _ _ hq2.symm
        · have := FormatUint_injective h
          have := hI.bound p hp
          omega
      · intro q hq1
        have hqlt := hI.parents p q hp hq1
        have hc3 := hc2 q hq1
        simp only [Node.GetChild] at hc3 ⊢
        rw [hC, hOld q (Nat.ne_of_lt hqlt), if_neg, hc3]
        rintro (⟨q2, hq3, hq4⟩ | h)
        · have hn := (hpar q2 hq3).2
          simp only [Node.GetChild] at hn
          rw [← hq4, hc3] at hn
          exact absurd hn (by simp)
        · exact childKey_ne_FormatUint _ _ _ h
  · intro p hp
    rw [hnp] at hp
    rw [hgi]
    by_cases h : p = s.nextPtr
    · rw [h, hRi]
    · rw [hOld p h]
      have := hI.bound p (by omega)
      omega
  · intro p q hp hpq
    rw [hnp] at hp ⊢
    by_cases h : p = s.nextPtr
    · rw [h, hRp] at hpq
      have := hq q hpq
      omega
    · rw [hOld p h] at hpq
      have := hI.parents p q (by omega) hpq
      omega

/-- What `Rename` leaves in the registry. -/
theorem Rename_cache (s : State) (n onode : Nat) (ndir : Option Nat) (nname k : String) :
    (Node.Rename s n onode ndir nname).inodeCache k
      = if (∃ b, ndir = some b ∧ k = childKey (s.heap b).inode nname)
            ∨ k = FormatUint (s.heap onode).inode then some onode
        else if k = childKey (s.heap n).inode (s.heap onode).name then none
        else s.inodeCache k := by
  cases ndir with
  | none => simp [Node.Rename, Node.Save, Cache.Set, Cache.Delete]
  | some b =>
    have hb : (Function.update s.heap onode
        { s.heap onode with parent := some b, name := nname } b).inode = (s.heap b).inode := by
      by_cases h : b = onode
      · subst h; simp
      · simp [Function.update_noteq h]
    simp only [Node.Rename, Node.Save, Cache.Set, Cache.Delete, Function.update_same, hb]
    by_cases h1 : k = childKey (s.heap b).inode nname
    · simp [h1]
    · simp [h1]

theorem Rename_heap (s : State) (n onode : Nat) (ndir : Option Nat) (nname : String) :
    (Node.Rename s n onode ndir nname).heap
      = Function.update s.heap onode { s.heap onode with parent := ndir, name := nname } := by
  simp [Node.Rename]

theorem Rename_inode (s : State) (n onode : Nat) (ndir : Option Nat) (nname : String) (p : Nat) :
    ((Node.Rename s n onode ndir nname).heap p).inode = (s.heap p).inode := by
  rw [Rename_heap]
  by_cases h : p = onode
  · subst h; simp
  · simp [Function.update_noteq h]

@[simp] theorem Rename_nextPtr (s : State) (n onode : Nat) (ndir : Option Nat)
    (nname : String) : (Node.Rename s n onode ndir nname).nextPtr = s.nextPtr := by
  simp [Node.Rename]

@[simp] theorem Rename_ginode (s : State) (n onode : Nat) (ndir : Option Nat)
    (nname : String) : (Node.Rename s n onode ndir nname).ginode = s.ginode := by
  simp [Node.Rename]

theorem RegInv_rename (s : State) (n onode : Nat) (ndir : Option Nat) (nname : String)
    (hI : RegInv s) (hg : (RegOp.rename n onode ndir nname).guard s) :
    RegInv ((RegOp.rename n onode ndir nname).apply s) := by
  obtain ⟨hpar, hreg, htgt⟩ := hg
  simp only [Node.GetChild] at hreg htgt
  obtain ⟨hlt, _⟩ := hI.keys _ _ hreg
  have hkI : s.inodeCache (FormatUint (s.heap onode).inode) = some onode :=
    (hI.consistent onode ⟨_, hreg⟩).1
  have hC := Rename_cache s n onode ndir nname
  have hH := Rename_heap s n onode ndir nname
  have hIno := Rename_inode s n onode ndir nname
  have hnp := Rename_nextPtr s n onode ndir nname
  have hgi := Rename_ginode s n onode ndir nname
  simp only [RegOp.apply]
  generalize Node.Rename s n onode ndir nname = t at hC hH hIno hnp hgi
  have hon : (t.heap onode).parent = ndir ∧ (t.heap onode).name = nname := by
    rw [hH]; simp
  have hoth : ∀ p, p ≠ onode → t.heap p = s.heap p := by
    intro p hp; rw [hH]; simp [Function.update_noteq hp]
  refine ⟨?_, ?_, ?_, ?_⟩
  · intro k p hk
    rw [hC] at hk
    split at hk
    · rename_i hc
      obtain rfl : onode = p := by simpa using hk
      refine ⟨by omega, ?_⟩
      rcases hc with ⟨b, hb1, hb2⟩ | hc
      · right
        exact ⟨b, by rw [hon.1, hb1], by rw [hIno, hon.2, hb2]⟩
      · left; rw [hIno, hc]
    · rename_i hc
      split at hk
      · simp at hk
      · rename_i hc2
        obtain ⟨hp, hkey⟩ := hI.keys k p hk
        refine ⟨by omega, ?_⟩
        by_cases hpo : p = onode
        · subst hpo
          exfalso
          rcases hkey with h | ⟨q, hq1, hq2⟩
          · exact hc (Or.inr h)
          · rw [hpar] at hq1
            obtain rfl : n = q := by simpa using hq1
            exact hc2 hq2
        · rw [hoth p hpo]
          rcases hkey with h | ⟨q, hq1, hq2⟩
          · exact Or.inl h
          · exact Or.inr ⟨q, hq1, by rw [hIno, hq2]⟩
  · rintro p ⟨k, hk⟩
    by_cases hpo : p = onode
    · subst hpo
      refine ⟨?_, ?_⟩
      · simp only [GetNodeByID]
        rw [hC, hIno, if_pos (Or.inr rfl)]
      · intro q hq1
        rw [hon.1] at hq1
        simp only [Node.GetChild]
        rw [hC, hIno, hon.2, if_pos (Or.inl ⟨q, hq1, rfl⟩)]
    · have hk2 : s.inodeCache k = some p := by
        rw [hC] at hk
        split at hk
        · exact absurd (by simpa using hk) (Ne.symm hpo)
        · split at hk
          · simp at hk
          · exact hk
      obtain ⟨hc1, hc2⟩ := hI.consistent p ⟨k, hk2⟩
      simp only [GetNodeByID, Node.GetChild] at hc1 hc2 ⊢
      rw [hoth p hpo]
      refine ⟨?_, ?_⟩
      · rw [hC, if_neg, if_neg, hc1]
        · exact fun h => childKey_ne_FormatUint _ _ _ h.symm
        · rintro (⟨b, _, hb2⟩ | h)
          · exact childKey_ne_FormatUint _ _ _ hb2.symm
          · rw [h, hkI] at hc1
            exact hpo (by simpa using hc1.symm)
      · intro q hq1
        have hc3 := hc2 q hq1
        rw [hIno, hC, if_neg, if_neg, hc3]
        · intro h
          rw [h, hreg] at hc3
          exact hpo (by simpa using hc3.symm)
        · rintro (⟨b, hb1, hb2⟩ | h)
          · rw [hb2] at hc3
            rcases (htgt b hb1).2 with h0 | h0
            · rw [h0] at hc3; simp at hc3
            · rw [h0] at hc3
              exact hpo (by simpa using hc3.symm)
          · exact childKey_ne_FormatUint _ _ _ h
  · intro p hp
    rw [hIno, hgi]
    exact hI.bound p (by omega)
  · intro p q hp hpq
    rw [hnp] at hp ⊢
    by_cases hpo : p = onode
    · subst hpo
      rw [hon.1] at hpq
      exact (htgt q hpq).1
    · rw [hoth p hpo] at hpq
      exact hI.parents p q hp hpq

/-- What `Remove` leaves in the registry. -/
theorem Remove_cache (s : State) (n : Nat) (k : String) :
    (Node.Remove s n).inodeCache k
      = if k = FormatUint (s.heap n).inode
            ∨ (∃ q, (s.heap n).parent = some q ∧ k = childKey (s.heap q).inode (s.heap n).name)
        then none else s.inodeCache k := by
  cases hp : (s.heap n).parent with
  | none =>
    simp only [Node.Remove, Node.rmInode, hp]
    split <;> simp [Cache.Delete]
  | some q =>
    simp only [Node.Remove, Node.rmInode, hp]
    by_cases h1 : k = childKey (s.heap q).inode (s.heap n).name
    · split <;> simp [h1, Cache.Delete]
    · split <;> simp [h1, Cache.Delete]

@[simp] theorem Remove_heap (s : State) (n : Nat) : (Node.Remove s n).heap = s.heap := by
  simp only [Node.Remove, Node.rmInode]; split <;> rfl

@[simp] theorem Remove_nextPtr (s : State) (n : Nat) :
    (Node.Remove s n).nextPtr = s.nextPtr := by
  simp only [Node.Remove, Node.rmInode]; split <;> rfl

@[simp] theorem Remove_ginode (s : State) (n : Nat) : (Node.Remove s n).ginode = s.ginode := by
  simp only [Node.Remove, Node.rmInode]; split <;> rfl

@[simp] theorem Remove_calls (s : State) (n : Nat) : (Node.Remove s n).calls = s.calls := by
  simp only [Node.Remove, Node.rmInode]; split <;> rfl

theorem RegInv_remove (s : State) (n : Nat) (hI : RegInv s)
    (hg : (RegOp.remove n).guard s) : RegInv ((RegOp.remove n).apply s) := by
  simp only [RegOp.guard, GetNodeByID] at hg
  have hchild := (hI.consistent n ⟨_, hg⟩).2
  simp only [Node.GetChild] at hchild
  have hC := Remove_cache s n
  simp only [RegOp.apply]
  have hold : ∀ k p, (Node.Remove s n).inodeCache k = some p →
      s.inodeCache k = some p ∧ p ≠ n := by
    intro k p hk
    rw [hC] at hk
    split at hk
    · simp at hk
    · rename_i hc
      refine ⟨hk, ?_⟩
      rintro rfl
      rcases (hI.keys k p hk).2 with h | h
      · exact hc (Or.inl h)
      · exact hc (Or.inr h)
  refine ⟨?_, ?_, ?_, ?_⟩
  · intro k p hk
    have := hI.keys k p (hold k p hk).1
    simpa using this
  · rintro p ⟨k, hk⟩
    obtain ⟨hk2, hpn⟩ := hold k p hk
    obtain ⟨hc1, hc2⟩ := hI.consistent p ⟨k, hk2⟩
    simp only [GetNodeByID, Node.GetChild, Remove_heap] at hc1 hc2 ⊢
    refine ⟨?_, ?_⟩
    · rw [hC, if_neg, hc1]
      rintro (h | ⟨q, _, hq2⟩)
      · rw [h, hg] at hc1
        exact hpn (by simpa using hc1.symm)
      · exact childKey_ne_FormatUint _ _ _ hq2.symm
    · intro q hq1
      have hc3 := hc2 q hq1
      rw [hC, if_neg, hc3]
      rintro (h | ⟨q2, hq3, hq4⟩)
      · exact childKey_ne_FormatUint _ _ _ h
      · rw [hq4, hchild q2 hq3] at hc3
        exact hpn (by simpa using hc3.symm)
  · intro p hp
    simpa using hI.bound p (by simpa using hp)
  · intro p q hp hpq
    simpa using hI.parents p q (by simpa using hp) (by simpa using hpq)

theorem RegInv_run (ops : List RegOp) : ∀ s : State, RegInv s → guardedRun s ops →
    RegInv (runReg s ops) := by
  induction ops with
  | nil => intro s hI _; exact hI
  | cons op ops ih =>
    intro s hI hg
    obtain ⟨hg1, hg2⟩ := hg
    have hstep : RegInv (op.apply s) := by
      cases op with
      | newNode a => exact RegInv_newNode s a hI hg1
      | rename n onode ndir nname => exact RegInv_rename s n onode ndir nname hI hg1
      | remove n => exact RegInv_remove s n hI hg1
    exact ih _ hstep hg2

theorem RegInv_empty (s : State) (h0 : ∀ k, s.inodeCache k = none) (hp : s.nextPtr = 0) :
    RegInv s := by
  refine ⟨?_, ?_, ?_, ?_⟩
  · intro k p hk; rw [h0] at hk; simp at hk
  · rintro p ⟨k, hk⟩; rw [h0] at hk; simp at hk
  · intro p hlt; omega
  · intro p q hlt; omega

/-- C2, for calls within the discipline of the callers. Starting from an empty registry, after any sequence of `NewNode`,
`Node.Rename` and `Node.Remove` calls made within the callers' discipline (`NewNode` with
inode argument 0 and an unwrapped counter under a parent that has no registered child of
that name; `Rename` on the current parent of a registered child towards a name not
registered for another node; `Remove` on a registered node), every node `p` still stored
in the registry satisfies `GetNodeByID(p.inode) == p` and, when `p.parent` is not nil,
`p.parent.GetChild(p.name) == p`. -/
theorem registry_consistent_of_guarded (s : State) (ops : List RegOp)
    (h0 : ∀ k, s.inodeCache k = none) (hp : s.nextPtr = 0) (hg : guardedRun s ops) :
    registryConsistent (runReg s ops) :=
  (RegInv_run ops s (RegInv_empty s h0 hp) hg).consistent

theorem registry_consistent_of_guarded_witness :
    registryConsistent (runReg (InitInode State.init 100) exOps) :=
  registry_consistent_of_guarded (InitInode State.init 100) exOps (fun _ => rfl) rfl
    ⟨⟨rfl, by decide, fun q hq => by cases hq⟩,
      ⟨rfl, by decide, fun q hq => by cases hq; exact ⟨by decide, by decide⟩⟩,
      ⟨rfl, by decide, fun q hq => by cases hq; exact ⟨by decide, by decide⟩⟩,
      ⟨by decide, by decide,
        fun b hb => by cases hb; exact ⟨by decide, Or.inl (by decide)⟩⟩,
      by simp only [RegOp.guard]; decide, trivial⟩

/-- C2 fails for unrestricted calls. (1) A second `NewNode` for the same parent and name
takes over the child key, so the first node, still stored under its inode key, is no
longer what its parent finds under its name. (2) `Rename` onto a name registered for
another node does the same to that node. (3) `Remove` of a node that was removed
before deletes the child key of the node that has taken its name since. -/
theorem registry_inconsistent_unguarded :
    ¬ registryConsistent (runReg (InitInode State.init 100)
        [.newNode ⟨0, none, "/srv/data", true, true⟩, .newNode ⟨0, some 0, "a", true, false⟩,
          .newNode ⟨0, some 0, "a", true, false⟩])
      ∧ ¬ registryConsistent (runReg (InitInode State.init 100)
        [.newNode ⟨0, none, "/srv/data", true, true⟩, .newNode ⟨0, some 0, "a", false, false⟩,
          .newNode ⟨0, some 0, "b", false, false⟩, .rename 0 1 (some 0) "b"])
      ∧ ¬ registryConsistent (runReg (InitInode State.init 100)
        [.newNode ⟨0, none, "/srv/data", true, true⟩, .newNode ⟨0, some 0, "a", false, false⟩,
          .remove 1, .newNode ⟨0, some 0, "a", false, false⟩, .remove 1]) := by
  refine ⟨fun h => ?_, fun h => ?_, fun h => ?_⟩
  · have h1 := (h 1 ⟨"102", by decide⟩).2 0 (by decide)
    revert h1
    decide
  · have h1 := (h 2 ⟨"103", by decide⟩).2 0 (by decide)
    revert h1
    decide
  · have h1 := (h 2 ⟨"103", by decide⟩).2 0 (by decide)
    revert h1
    decide

/-! ## C3 and C4: the inode allocator -/

theorem runAlloc_news (news : List NewArgs) : ∀ (s : State),
    (∀ a ∈ news, a.inode = 0) → s.ginode + news.length < 2 ^ 64 →
    (runAlloc s (news.map AllocOp.new)).2
      = (List.range news.length).map (fun i => s.ginode + 1 + i) := by
  induction news with
  | nil => intro s _ _; rfl
  | cons a news ih =>
    intro s h0 hlen
    have ha : a.inode = 0 := h0 a (List.mem_cons_self _ _)
    have hmod : (s.ginode + 1) % 2 ^ 64 = s.ginode + 1 :=
      Nat.mod_eq_of_lt (by simp at hlen; omega)
    simp only [List.map_cons, runAlloc, NewNode_snd]
    rw [ha, NewNode_inode, ih _ (fun b hb => h0 b (List.mem_cons_of_mem _ hb))
      (by simp [hmod] at hlen ⊢; omega)]
    simp only [NewNode_ginode, hmod, List.length_cons, List.range_succ_eq_map, List.map_cons,
      List.map_map]
    refine congrArg₂ _ rfl (List.map_congr_left ?_)
    intro i _
    simp only [Function.comp]
    omega

/-- C3, for one seeding. After one `InitInode(seed)`, any number of `NewNode` calls made with
inode argument 0 (as at every call site), as long as the 64-bit counter does not wrap,
create nodes with the inodes `seed+1, seed+2, ...`: pairwise distinct and each greater
than the seed. -/
theorem inodes_distinct_after_seed (s : State) (seed : Nat) (news : List NewArgs)
    (h0 : ∀ a ∈ news, a.inode = 0) (hlen : seed + news.length < 2 ^ 64) :
    (runAlloc s (AllocOp.init seed :: news.map AllocOp.new)).2
        = (List.range news.length).map (fun i => seed + 1 + i)
      ∧ (runAlloc s (AllocOp.init seed :: news.map AllocOp.new)).2.Nodup
      ∧ ∀ i ∈ (runAlloc s (AllocOp.init seed :: news.map AllocOp.new)).2, seed ≤ i := by
  have h : (runAlloc s (AllocOp.init seed :: news.map AllocOp.new)).2
      = (List.range news.length).map (fun i => seed + 1 + i) := by
    simp only [runAlloc]
    exact runAlloc_news news (InitInode s seed) h0 hlen
  refine ⟨h, ?_, ?_⟩
  · rw [h]
    refine (List.nodup_range _).map ?_
    intro a b hab
    simpa using hab
  · intro i hi
    rw [h] at hi
    obtain ⟨k, _, rfl⟩ := List.mem_map.1 hi
    omega

theorem inodes_distinct_after_seed_witness :
    (runAlloc State.init
        [.init 100, .new ⟨0, none, "/srv/data", true, true⟩,
          .new ⟨0, some 0, "a", true, false⟩]).2 = [101, 102]
      ∧ (runAlloc State.init
        [.init 100, .new ⟨0, none, "/srv/data", true, true⟩,
          .new ⟨0, some 0, "a", true, false⟩]).2.Nodup
      ∧ ∀ i ∈ (runAlloc State.init
        [.init 100, .new ⟨0, none, "/srv/data", true, true⟩,
          .new ⟨0, some 0, "a", true, false⟩]).2, 100 ≤ i :=
  inodes_distinct_after_seed State.init 100
    [⟨0, none, "/srv/data", true, true⟩, ⟨0, some 0, "a", true, false⟩]
    (by intro a ha; simp at ha; rcases ha with rfl | rfl <;> rfl) (by decide)

/-- C3 fails as stated: a second `InitInode` with the same seed (a second mount in the
same process) makes `NewNode` hand out an inode again; an explicit inode argument is
taken as it is; and at the top of the 64-bit range the counter wraps below the seed. -/
theorem reseed_repeats_inode :
    (runAlloc State.init
        [.init 100, .new ⟨0, none, "/srv/a", true, true⟩,
          .init 100, .new ⟨0, none, "/srv/b", true, true⟩]).2 = [101, 101]
      ∧ ¬ (runAlloc State.init
        [.init 100, .new ⟨0, none, "/srv/a", true, true⟩,
          .init 100, .new ⟨0, none, "/srv/b", true, true⟩]).2.Nodup
      ∧ (runAlloc State.init
        [.init 100, .new ⟨7, none, "/srv/a", true, true⟩,
          .new ⟨7, some 0, "b", false, false⟩]).2 = [7, 7]
      ∧ (runAlloc State.init
        [.init (2 ^ 64 - 1), .new ⟨0, none, "/srv/a", true, true⟩]).2 = [0] := by
  refine ⟨by decide, by decide, by decide, by decide⟩

/-- What `Node.Remove` does to the allocator: the released inode is put at the end of the
free-list while the queue has room (a full queue drops it), and the counter is not
touched. -/
theorem Remove_freeInode (s : State) (n : Nat) :
    (Node.Remove s n).freeInode
        = (if s.freeInode.length < freeInodeCapacity then s.freeInode ++ [(s.heap n).inode]
           else s.freeInode)
      ∧ (Node.Remove s n).ginode = s.ginode := by
  simp only [Node.Remove, Node.rmInode]
  split <;> exact ⟨rfl, rfl⟩

/-- C4, as the allocator behaves. In every state, whatever the free-list holds, `genInode`
returns the incremented counter (modulo `2 ^ 64`) and leaves the free-list unchanged, and
so does `NewNode` with inode argument 0 for the node it creates.  `Node.Remove` puts the
released inode at the end of the free-list while the queue has room (a full queue drops it)
and does not touch the counter.  In particular, right after a `Remove` that released an
inode the next allocation still returns the incremented counter and the free-list is as
`Remove` left it, the released inode included. -/
theorem alloc_ignores_free_list (s : State) (n : Nat) (parent : Option Nat) (name : String)
    (isdir isroot : Bool) :
    (genInode s).2 = (s.ginode + 1) % 2 ^ 64
      ∧ (genInode s).1.freeInode = s.freeInode
      ∧ ((NewNode s 0 parent name isdir isroot).1.heap
          (NewNode s 0 parent name isdir isroot).2).inode = (s.ginode + 1) % 2 ^ 64
      ∧ (NewNode s 0 parent name isdir isroot).1.freeInode = s.freeInode
      ∧ (Node.Remove s n).freeInode
          = (if s.freeInode.length < freeInodeCapacity then s.freeInode ++ [(s.heap n).inode]
             else s.freeInode)
      ∧ (Node.Remove s n).ginode = s.ginode
      ∧ (genInode (Node.Remove s n)).2 = (s.ginode + 1) % 2 ^ 64
      ∧ (genInode (Node.Remove s n)).1.freeInode
          = (if s.freeInode.length < freeInodeCapacity then s.freeInode ++ [(s.heap n).inode]
             else s.freeInode)
      ∧ ((NewNode (Node.Remove s n) 0 parent name isdir isroot).1.heap
          (NewNode (Node.Remove s n) 0 parent name isdir isroot).2).inode
          = (s.ginode + 1) % 2 ^ 64
      ∧ (NewNode (Node.Remove s n) 0 parent name isdir isroot).1.freeInode
          = (if s.freeInode.length < freeInodeCapacity then s.freeInode ++ [(s.heap n).inode]
             else s.freeInode) := by
  obtain ⟨hf, hg⟩ := Remove_freeInode s n
  refine ⟨rfl, rfl, ?_, NewNode_freeInode _ _ _ _ _ _, hf, hg, ?_, ?_, ?_, ?_⟩
  · rw [NewNode_snd, NewNode_inode]
  · simp only [genInode, hg]
  · simp only [genInode, hf]
  · rw [NewNode_snd, NewNode_inode, hg]
  · rw [NewNode_freeInode, hf]

/-- C4 fails as stated: the free-list of the example tree is empty; after the file `b.txt`
(inode 103) is removed the free-list is `[103]`, yet the next allocation returns 104,
which is not on the free-list, and the free-list still holds 103. -/
theorem genInode_skips_free_list :
    exTree.freeInode = []
      ∧ (Node.Remove exTree 2).freeInode = [103]
      ∧ (genInode (Node.Remove exTree 2)).2 = 104
      ∧ 104 ∉ (Node.Remove exTree 2).freeInode
      ∧ (genInode (Node.Remove exTree 2)).1.freeInode = [103] := by
  refine ⟨by decide, by decide, by decide, by decide, by decide⟩

/-! ## C5: lookup after create -/

@[simp] theorem logCall_heap (s : State) (c : Call) : (s.logCall c).heap = s.heap := rfl

@[simp] theorem logCall_cache (s : State) (c : Call) :
    (s.logCall c).inodeCache = s.inodeCache := rfl

@[simp] theorem setFiles_cache (s : State) (d : Nat) (l : List Nat) :
    (s.setFiles d l).inodeCache = s.inodeCache := rfl

@[simp] theorem setDirs_cache (s : State) (d : Nat) (l : List Nat) :
    (s.setDirs d l).inodeCache = s.inodeCache := rfl

theorem setFiles_inode (s : State) (d : Nat) (l : List Nat) (p : Nat) :
    ((s.setFiles d l).heap p).inode = (s.heap p).inode := by
  by_cases h : p = d
  · subst h; simp [State.setFiles]
  · simp [State.setFiles, Function.update_noteq h]

theorem setDirs_inode (s : State) (d : Nat) (l : List Nat) (p : Nat) :
    ((s.setDirs d l).heap p).inode = (s.heap p).inode := by
  by_cases h : p = d
  · subst h; simp [State.setDirs]
  · simp [State.setDirs, Function.update_noteq h]

theorem setDirs_core (s : State) (d : Nat) (l : List Nat) (p : Nat) :
    ((s.setDirs d l).heap p).core = (s.heap p).core := by
  by_cases h : p = d
  · subst h; simp [State.setDirs, Node.core]
  · simp [State.setDirs, Function.update_noteq h]

theorem setFiles_core (s : State) (d : Nat) (l : List Nat) (p : Nat) :
    ((s.setFiles d l).heap p).core = (s.heap p).core := by
  by_cases h : p = d
  · subst h; simp [State.setFiles, Node.core]
  · simp [State.setFiles, Function.update_noteq h]

theorem core_eq_iff (a b : Node) :
    a.core = b.core ↔ a.inode = b.inode ∧ a.name = b.name ∧ a.path = b.path
      ∧ a.localpath = b.localpath ∧ a.isdir = b.isdir ∧ a.isroot = b.isroot
      ∧ a.parent = b.parent := by
  simp [Node.core]

theorem Result.fail_ne_ok {α β : Type} (x : Result α) (b : β) :
    (x.fail : Result β) ≠ .ok b := by
  cases x <;> simp [Result.fail]

/-- The climbing loop reads only the fields of `Node.core`. -/
theorem climb_core_congr (h1 h2 : Nat → Node) (hcore : ∀ p, (h1 p).core = (h2 p).core) :
    ∀ (fuel : Nat) (a b : Node) (acc : List String), a.core = b.core →
      Node.climb Node.path h1 fuel a acc = Node.climb Node.path h2 fuel b acc := by
  intro fuel
  induction fuel with
  | zero => intro a b acc _; rfl
  | succ fuel ih =>
    intro a b acc hab
    obtain ⟨_, e2, e3, _, _, e6, e7⟩ := (core_eq_iff _ _).1 hab
    simp only [Node.climb, e2, e3, e6, e7]
    split
    · rfl
    · cases b.parent with
      | none => rfl
      | some q => exact ih _ _ _ (hcore q)

theorem Path_core_congr (h1 h2 : Nat → Node) (hcore : ∀ p, (h1 p).core = (h2 p).core)
    (fuel n : Nat) : Node.Path h1 fuel n = Node.Path h2 fuel n := by
  obtain ⟨_, e2, e3, _, _, e6, e7⟩ := (core_eq_iff _ _).1 (hcore n)
  simp only [Node.Path, e2, e3, e6, e7]
  split
  · rfl
  · cases (h2 n).parent with
    | none => rfl
    | some q => simp only [climb_core_congr h1 h2 hcore fuel _ _ _ (hcore q)]

/-- More fuel and another accumulator do not make the climbing loop fail. -/
theorem climb_ok_succ (field : Node → String) (h : Nat → Node) :
    ∀ (fuel : Nat) (pn : Node) (acc : List String) (l : List String),
      Node.climb field h fuel pn acc = .ok l →
      ∀ acc2, ∃ l2, Node.climb field h (fuel + 1) pn acc2 = .ok l2 := by
  intro fuel
  induction fuel with
  | zero => intro pn acc l hl; simp [Node.climb] at hl
  | succ fuel ih =>
    intro pn acc l hl acc2
    rw [Node.climb] at hl ⊢
    split
    · exact ⟨_, rfl⟩
    · rename_i hr
      rw [if_neg hr] at hl
      cases hp : pn.parent with
      | none => rw [hp] at hl; simp at hl
      | some q =>
        rw [hp] at hl
        exact ih _ _ _ hl _

/-- When the path of a non-root node can be computed, so can the path of its parent. -/
theorem Path_parent_ok (h : Nat → Node) (fuel n d : Nat) (p : String)
    (hr : (h n).isroot = false) (hpar : (h n).parent = some d)
    (hP : Node.Path h fuel n = .ok p) : ∃ p2, Node.Path h fuel d = .ok p2 := by
  simp only [Node.Path, hr, hpar, Bool.false_eq_true, if_false] at hP
  cases hc : Node.climb Node.path h fuel (h d) [(h n).name] with
  | ok l =>
    unfold Node.Path
    split
    · exact ⟨_, rfl⟩
    · rename_i hdr
      cases fuel with
      | zero => simp [Node.climb] at hc
      | succ k =>
        rw [Node.climb, if_neg hdr] at hc
        cases hq : (h d).parent with
        | none => rw [hq] at hc; simp at hc
        | some q =>
          rw [hq] at hc
          obtain ⟨l2, hl2⟩ := climb_ok_succ Node.path h k (h q) _ l hc [(h d).name]
          exact ⟨Join (reverse l2), by simp only [hl2]⟩
  | error e => rw [hc] at hP; simp at hP
  | panic => rw [hc] at hP; simp at hP
  | timeout => rw [hc] at hP; simp at hP

/-- The node created by `NewNode` under `d` with the name `name` is what `d.GetChild(name)`
returns afterwards. -/
theorem NewNode_GetChild (s : State) (d : Nat) (name : String) (isdir : Bool) :
    Node.GetChild (NewNode s 0 (some d) name isdir false).1 d name = some s.nextPtr := by
  simp [NewNode, genInode, Node.Save, Node.GetChild, Cache.Set]

/-- The two ways in which `Dir.Create` returns a node: the registered child, with the
state untouched, or a new node whose path was computed, with the registry and the node
records (child lists apart) as `NewNode` left them. -/
theorem Create_ok (r : Remote) (fuel : Nat) (s s1 : State) (d : Nat) (f : String)
    (mode uid gid node : Nat)
    (hC : Dir.Create r fuel s d f mode uid gid = (s1, .ok node)) :
    (Node.GetChild s d f = some node ∧ s1 = s)
      ∨ (Node.GetChild s d f = none ∧ node = s.nextPtr
        ∧ (∃ p0, Node.Path (NewNode s 0 (some d) f false false).1.heap fuel s.nextPtr = .ok p0)
        ∧ s1.inodeCache = (NewNode s 0 (some d) f false false).1.inodeCache
        ∧ ∀ p, (s1.heap p).core = ((NewNode s 0 (some d) f false false).1.heap p).core) := by
  unfold Dir.Create at hC
  split at hC
  · rename_i c hc
    simp only [Prod.mk.injEq, Result.ok.injEq] at hC
    obtain ⟨rfl, rfl⟩ := hC
    exact Or.inl ⟨hc, rfl⟩
  · rename_i hnone
    dsimp only at hC
    split at hC
    · rename_i p0 hp0
      split at hC
      · simp at hC
      · split at hC
        · simp at hC
        · split at hC
          · simp at hC
          · simp only [Prod.mk.injEq, Result.ok.injEq] at hC
            obtain ⟨rfl, rfl⟩ := hC
            exact Or.inr ⟨hnone, rfl, ⟨p0, hp0⟩, rfl, fun p => setFiles_core _ _ _ p⟩
    · simp only [Prod.mk.injEq] at hC
      exact absurd hC.2 (Result.fail_ne_ok _ _)

/-- C5. For a directory `dir` whose path can be computed (its parent chain reaches a
root within the fuel): when `Dir.Create(dir, f, ...)` has returned a node successfully,
`Dir.Lookup(dir, f)` returns that same node and changes nothing; in particular the log of
SFTP calls is as `Create` left it, so no remote stat is issued. -/
theorem Lookup_after_Create (r1 r2 : Remote) (fuel : Nat) (s s1 : State) (d : Nat)
    (f : String) (mode uid gid : Nat) (node : Nat) (p : String)
    (hP : Node.Path s.heap fuel d = .ok p)
    (hC : Dir.Create r1 fuel s d f mode uid gid = (s1, .ok node)) :
    Dir.Lookup r2 fuel s1 d f = (s1, .ok node)
      ∧ (Dir.Lookup r2 fuel s1 d f).1.calls = s1.calls := by
  have hkey : Node.GetChild s1 d f = some node ∧ ∃ p1, Node.Path s1.heap fuel d = .ok p1 := by
    rcases Create_ok r1 fuel s s1 d f mode uid gid node hC with
      ⟨hg, rfl⟩ | ⟨_, rfl, ⟨p0, hp0⟩, hc, hk⟩
    · exact ⟨hg, p, hP⟩
    · refine ⟨?_, ?_⟩
      · have h := NewNode_GetChild s d f false
        simp only [Node.GetChild] at h ⊢
        rw [hc, ((core_eq_iff _ _).1 (hk d)).1]
        exact h
      · rw [Path_core_congr _ _ hk]
        have hnew := NewNode_heap_new s (some d) f false
        exact Path_parent_ok _ fuel s.nextPtr d p0 (by rw [hnew]) (by rw [hnew]) hp0
  obtain ⟨hG, p1, hP1⟩ := hkey
  have hL : Dir.Lookup r2 fuel s1 d f = (s1, .ok node) := by
    simp [Dir.Lookup, hP1, hG]
  exact ⟨hL, by rw [hL]⟩

theorem Lookup_after_Create_witness :
    Dir.Lookup okRemote 1 (Dir.Create okRemote 1 exRoot 0 "new.txt" 420 0 0).1 0 "new.txt"
        = ((Dir.Create okRemote 1 exRoot 0 "new.txt" 420 0 0).1, .ok 1)
      ∧ (Dir.Lookup okRemote 1 (Dir.Create okRemote 1 exRoot 0 "new.txt" 420 0 0).1 0
          "new.txt").1.calls
        = (Dir.Create okRemote 1 exRoot 0 "new.txt" 420 0 0).1.calls :=
  Lookup_after_Create okRemote okRemote 1 exRoot _ 0 "new.txt" 420 0 0 1 "/srv/data"
    (by decide) (Prod.ext rfl (by decide))

/-! ## C6: lookup of an entry that is only known remotely -/

@[simp] theorem setDirs_nextPtr (s : State) (d : Nat) (l : List Nat) :
    (s.setDirs d l).nextPtr = s.nextPtr := rfl

@[simp] theorem setFiles_nextPtr (s : State) (d : Nat) (l : List Nat) :
    (s.setFiles d l).nextPtr = s.nextPtr := rfl

theorem setDirs_heap_other (s : State) (d : Nat) (l : List Nat) (p : Nat) (h : p ≠ d) :
    (s.setDirs d l).heap p = s.heap p := by
  simp [State.setDirs, Function.update_noteq h]

theorem setFiles_heap_other (s : State) (d : Nat) (l : List Nat) (p : Nat) (h : p ≠ d) :
    (s.setFiles d l).heap p = s.heap p := by
  simp [State.setFiles, Function.update_noteq h]

theorem setDirs_heap_self (s : State) (d : Nat) (l : List Nat) :
    (s.setDirs d l).heap d = { s.heap d with Dirs := some l } := by
  simp [State.setDirs]

theorem setFiles_heap_self (s : State) (d : Nat) (l : List Nat) :
    (s.setFiles d l).heap d = { s.heap d with Files := some l } := by
  simp [State.setFiles]

/-- The node-creation code of `Dir.Lookup` taken on its own (lines 129-145, which follow
the stat check).  For an allocated directory `d`, run on a stat result `f`, it returns
without error a newly created node whose parent is `d`, whose kind is `f.IsDir()` and
whose name is `f.Name()`, registers it so that `d.GetChild(f.Name())` returns it, and
appends it at the end of the child list of `d` of that kind (a list that was absent
becomes the one-element list); the other child list of `d` is not changed. -/
theorem Lookup_link_appends (s : State) (d : Nat) (f : FileInfo) (hd : d < s.nextPtr) :
    (Dir.Lookup.link s d f).2 = .ok s.nextPtr
      ∧ ((Dir.Lookup.link s d f).1.heap s.nextPtr).parent = some d
      ∧ ((Dir.Lookup.link s d f).1.heap s.nextPtr).isdir = f.isDir
      ∧ ((Dir.Lookup.link s d f).1.heap s.nextPtr).name = f.name
      ∧ Node.GetChild (Dir.Lookup.link s d f).1 d f.name = some s.nextPtr
      ∧ ((Dir.Lookup.link s d f).1.heap d).Dirs
          = (if f.isDir then some ((s.heap d).Dirs.getD [] ++ [s.nextPtr]) else (s.heap d).Dirs)
      ∧ ((Dir.Lookup.link s d f).1.heap d).Files
          = (if f.isDir then (s.heap d).Files
             else some ((s.heap d).Files.getD [] ++ [s.nextPtr])) := by
  have hne : s.nextPtr ≠ d := Nat.ne_of_gt hd
  have hnew := NewNode_heap_new s (some d) f.name f.isDir
  have hold := NewNode_heap_old s 0 (some d) f.name f.isDir false d (Nat.ne_of_lt hd)
  have hget := NewNode_GetChild s d f.name f.isDir
  simp only [Node.GetChild] at hget ⊢
  cases hf : f.isDir with
  | true =>
    rw [hf] at hnew hold hget
    rw [hold] at hget
    cases hD : (s.heap d).Dirs <;>
      simp [Dir.Lookup.link, hf, setDirs_heap_other _ _ _ _ hne, setDirs_heap_self,
        setDirs_inode, hnew, hold, hget, hD]
  | false =>
    rw [hf] at hnew hold hget
    rw [hold] at hget
    cases hD : (s.heap d).Files <;>
      simp [Dir.Lookup.link, hf, setFiles_heap_other _ _ _ _ hne, setFiles_heap_self,
        setFiles_inode, hnew, hold, hget, hD]

theorem Lookup_link_appends_witness :
    (Dir.Lookup.link exMkdir 0 ⟨"b", true⟩).2 = .ok 2
      ∧ ((Dir.Lookup.link exMkdir 0 ⟨"b", true⟩).1.heap 2).parent = some 0
      ∧ ((Dir.Lookup.link exMkdir 0 ⟨"b", true⟩).1.heap 2).isdir = true
      ∧ ((Dir.Lookup.link exMkdir 0 ⟨"b", true⟩).1.heap 2).name = "b"
      ∧ Node.GetChild (Dir.Lookup.link exMkdir 0 ⟨"b", true⟩).1 0 "b" = some 2
      ∧ ((Dir.Lookup.link exMkdir 0 ⟨"b", true⟩).1.heap 0).Dirs = some [1, 2]
      ∧ ((Dir.Lookup.link exMkdir 0 ⟨"b", true⟩).1.heap 0).Files = none :=
  Lookup_link_appends exMkdir 0 ⟨"b", true⟩ (by decide)

/-- Whenever `Dir.Lookup` misses the registry and the remote `Stat` succeeds, the call
`err.Error()` on the nil error panics: the only change to the state is the logged stat
call, so no node is created, registered or listed. -/
theorem Lookup_panics_on_stat_success (r : Remote) (fuel : Nat) (s : State) (d : Nat)
    (name p : String) (f : FileInfo) (hP : Node.Path s.heap fuel d = .ok p)
    (hG : Node.GetChild s d name = none) (hS : r.Stat (Join [p, name]) = .ok f) :
    Dir.Lookup r fuel s d name = (s.logCall (.stat (Join [p, name])), .panic) := by
  simp [Dir.Lookup, hP, hG, hS, statErr, errorText]

/-- C6 does not hold of the code. On the root of the example mount (address 0, no node
besides it), with no child `a` registered and a remote `Stat` of `/srv/data/a` that
succeeds with a directory, `Dir.Lookup` does not return a node: after the stat, the call
`err.Error()` on the nil error panics.  No node is created (the next free address and the
inode counter are as before), nothing is registered under `a`, and the child lists of the
root are as before. -/
theorem Lookup_stat_success_panics :
    Node.GetChild exRoot 0 "a" = none
      ∧ statRemote.Stat "/srv/data/a" = .ok { name := "a", isDir := true }
      ∧ (Dir.Lookup statRemote 1 exRoot 0 "a").2 = .panic
      ∧ (Dir.Lookup statRemote 1 exRoot 0 "a").1.calls = [.stat "/srv/data/a"]
      ∧ Node.GetChild (Dir.Lookup statRemote 1 exRoot 0 "a").1 0 "a" = none
      ∧ (Dir.Lookup statRemote 1 exRoot 0 "a").1.nextPtr = exRoot.nextPtr
      ∧ (Dir.Lookup statRemote 1 exRoot 0 "a").1.ginode = exRoot.ginode
      ∧ ((Dir.Lookup statRemote 1 exRoot 0 "a").1.heap 0).Dirs = (exRoot.heap 0).Dirs
      ∧ ((Dir.Lookup statRemote 1 exRoot 0 "a").1.heap 0).Files = (exRoot.heap 0).Files := by
  refine ⟨by decide, rfl, by decide, by decide, by decide, by decide, by decide, by decide,
    by decide⟩

/-! ## C7: `ReadDirAll` rebuilds the child lists from the listing -/

theorem childrenNamed_of_RegInv (s : State) (d : Nat) (hI : RegInv s) : childrenNamed s d := by
  intro name c hc
  simp only [Node.GetChild] at hc
  obtain ⟨hlt, hkey⟩ := hI.keys _ _ hc
  refine ⟨hlt, ?_⟩
  rcases hkey with h | ⟨q, _, hq⟩
  · exact absurd h (childKey_ne_FormatUint _ _ _)
  · exact (childKey_injective hq).2.symm

theorem childrenNamed_NewNode (s : State) (d : Nat) (name : String) (isdir : Bool)
    (hd : d < s.nextPtr) (hK : childrenNamed s d) :
    childrenNamed (NewNode s 0 (some d) name isdir false).1 d := by
  intro nm c hc
  have hC := NewNode_cache s ⟨0, some d, name, isdir, false⟩ rfl
    (by intro q hq; cases hq; exact hd)
  have hR := NewNode_record s ⟨0, some d, name, isdir, false⟩ rfl
  simp only [NewArgs.nodeName, Bool.and_false, Bool.false_eq_true, if_false] at hC hR
  simp only [Node.GetChild, NewNode_heap_old s 0 (some d) name isdir false d (Nat.ne_of_lt hd)]
    at hc
  rw [hC] at hc
  rw [NewNode_nextPtr]
  split at hc
  · obtain rfl : s.nextPtr = c := by simpa using hc
    rename_i hcond
    refine ⟨by omega, ?_⟩
    rcases hcond with ⟨q, hq1, hq2⟩ | h
    · rw [hR.2.2]
      exact (childKey_injective hq2).2.symm
    · exact absurd h (childKey_ne_FormatUint _ _ _)
  · obtain ⟨h1, h2⟩ := hK nm c hc
    refine ⟨by omega, ?_⟩
    rw [NewNode_heap_old s 0 (some d) name isdir false c (Nat.ne_of_lt h1)]
    exact h2

/-- One iteration of the loop of `ReadDirAll`: the child used for the listing entry. -/
theorem ReadDirAll_step_spec (d : Nat) (acc : ReadAcc) (f : FileInfo)
    (hd : d < acc.s.nextPtr) (hK : childrenNamed acc.s d) :
    ∃ c, c < (Dir.ReadDirAll.step d acc f).s.nextPtr
      ∧ ((Dir.ReadDirAll.step d acc f).s.heap c).name = f.name
      ∧ (Dir.ReadDirAll.step d acc f).directories
          = acc.directories ++ (if f.isDir then [c] else [])
      ∧ (Dir.ReadDirAll.step d acc f).files = acc.files ++ (if f.isDir then [] else [c])
      ∧ (Dir.ReadDirAll.step d acc f).dirs
          = acc.dirs ++ [direntOf (Dir.ReadDirAll.step d acc f).s.heap c f]
      ∧ childrenNamed (Dir.ReadDirAll.step d acc f).s d
      ∧ acc.s.nextPtr ≤ (Dir.ReadDirAll.step d acc f).s.nextPtr
      ∧ (∀ p, p < acc.s.nextPtr → (Dir.ReadDirAll.step d acc f).s.heap p = acc.s.heap p)
      ∧ (Dir.ReadDirAll.step d acc f).s.calls = acc.s.calls := by
  cases hfound : Node.GetChild acc.s d f.name with
  | some c =>
    obtain ⟨h1, h2⟩ := hK _ _ hfound
    refine ⟨c, ?_⟩
    cases hf : f.isDir <;>
      simp [Dir.ReadDirAll.step, hfound, hf, h1, h2, hK, direntOf]
  | none =>
    have hR := NewNode_record acc.s ⟨0, some d, f.name, f.isDir, false⟩ rfl
    simp only [NewArgs.nodeName, Bool.and_false, Bool.false_eq_true, if_false] at hR
    have hK2 := childrenNamed_NewNode acc.s d f.name f.isDir hd hK
    have hold : ∀ p, p < acc.s.nextPtr →
        (NewNode acc.s 0 (some d) f.name f.isDir false).1.heap p = acc.s.heap p :=
      fun p hp => NewNode_heap_old _ _ _ _ _ _ p (Nat.ne_of_lt hp)
    refine ⟨acc.s.nextPtr, ?_⟩
    cases hf : f.isDir <;> rw [hf] at hR hK2 hold <;>
      simp [Dir.ReadDirAll.step, hfound, hf, hR, hK2, direntOf] <;> exact hold

theorem ReadDirAll_fold_spec (d : Nat) : ∀ (fs : List FileInfo) (acc : ReadAcc),
    d < acc.s.nextPtr → childrenNamed acc.s d →
    ∃ cs : List Nat,
      List.Forall₂ (fun c f => ((fs.foldl (Dir.ReadDirAll.step d) acc).s.heap c).name = f.name)
          cs fs
        ∧ (fs.foldl (Dir.ReadDirAll.step d) acc).directories
            = acc.directories ++ ((cs.zip fs).filter (fun x => x.2.isDir)).map Prod.fst
        ∧ (fs.foldl (Dir.ReadDirAll.step d) acc).files
            = acc.files ++ ((cs.zip fs).filter (fun x => !x.2.isDir)).map Prod.fst
        ∧ (fs.foldl (Dir.ReadDirAll.step d) acc).dirs
            = acc.dirs
              ++ List.zipWith (direntOf (fs.foldl (Dir.ReadDirAll.step d) acc).s.heap) cs fs
        ∧ acc.s.nextPtr ≤ (fs.foldl (Dir.ReadDirAll.step d) acc).s.nextPtr
        ∧ (∀ p, p < acc.s.nextPtr →
            (fs.foldl (Dir.ReadDirAll.step d) acc).s.heap p = acc.s.heap p)
        ∧ (fs.foldl (Dir.ReadDirAll.step d) acc).s.calls = acc.s.calls := by
  intro fs
  induction fs with
  | nil =>
    intro acc _ _
    exact ⟨[], by simp⟩
  | cons f fs ih =>
    intro acc hd hK
    obtain ⟨c, hc1, hc2, hc3, hc4, hc5, hc6, hc7, hc8, hc9⟩ :=
      ReadDirAll_step_spec d acc f hd hK
    obtain ⟨cs, h1, h2, h3, h4, h5, h6, h7⟩ :=
      ih (Dir.ReadDirAll.step d acc f) (by omega) hc6
    have hheap := h6 c hc1
    refine ⟨c :: cs, ?_, ?_, ?_, ?_, ?_, ?_, ?_⟩
    · refine List.Forall₂.cons ?_ h1
      simp only [List.foldl_cons]
      rw [hheap, hc2]
    · simp only [List.foldl_cons]
      rw [h2, hc3]
      cases hf : f.isDir <;> simp [hf]
    · simp only [List.foldl_cons]
      rw [h3, hc4]
      cases hf : f.isDir <;> simp [hf]
    · simp only [List.foldl_cons] at hheap ⊢
      rw [h4, hc5]
      simp [direntOf, hheap]
    · simp only [List.foldl_cons]; omega
    · intro p hp
      simp only [List.foldl_cons]
      rw [h6 p (by omega), hc8 p hp]
    · simp only [List.foldl_cons]
      rw [h7, hc9]

theorem setDirs_name (s : State) (d : Nat) (l : List Nat) (p : Nat) :
    ((s.setDirs d l).heap p).name = (s.heap p).name := by
  by_cases h : p = d
  · subst h; simp [State.setDirs]
  · simp [State.setDirs, Function.update_noteq h]

theorem setFiles_name (s : State) (d : Nat) (l : List Nat) (p : Nat) :
    ((s.setFiles d l).heap p).name = (s.heap p).name := by
  by_cases h : p = d
  · subst h; simp [State.setFiles]
  · simp [State.setFiles, Function.update_noteq h]

theorem names_of_children (h : Nat → Node) : ∀ (cs : List Nat) (fs : List FileInfo),
    List.Forall₂ (fun c f => (h c).name = f.name) cs fs →
    cs.length = fs.length ∧ cs.map (fun c => (h c).name) = fs.map FileInfo.name
      ∧ (cs.zip fs).map Prod.fst = cs
      ∧ (List.zipWith (direntOf h) cs fs).map Dirent.Name = fs.map FileInfo.name
      ∧ (List.zipWith (direntOf h) cs fs).map Dirent.isDirType = fs.map FileInfo.isDir := by
  intro cs fs hF
  induction hF with
  | nil => simp
  | cons hab _ ih =>
    obtain ⟨i1, i2, i3, i4, i5⟩ := ih
    simp [i1, i2, i3, i4, i5, hab, direntOf]

/-- C7. For an allocated directory `d` whose registered children carry the names they are
registered under, whose path can be computed, and for every listing `fs` returned by the
remote `ReadDir`: `ReadDirAll` succeeds; there is one child node per listing entry (`cs`,
in listing order) bearing the name of that entry; the returned entries are, in listing
order, the name and inode of that child with the kind of the listing entry; `d.Dirs` and
`d.Files` hold the children of the directory entries and of the other entries; and the
multiset of names of the nodes in `d.Dirs` together with `d.Files` is the multiset of
names of the listing. -/
theorem ReadDirAll_rebuilds (r : Remote) (fuel : Nat) (s : State) (d : Nat) (p : String)
    (fs : List FileInfo) (hd : d < s.nextPtr) (hK : childrenNamed s d)
    (hP : Node.Path s.heap fuel d = .ok p) (hR : r.ReadDir (Join [p]) = .ok fs) :
    ∃ cs : List Nat,
      List.Forall₂ (fun c f => ((Dir.ReadDirAll r fuel s d).1.heap c).name = f.name) cs fs
        ∧ (Dir.ReadDirAll r fuel s d).2
            = .ok (List.zipWith (direntOf (Dir.ReadDirAll r fuel s d).1.heap) cs fs)
        ∧ (List.zipWith (direntOf (Dir.ReadDirAll r fuel s d).1.heap) cs fs).map Dirent.Name
            = fs.map FileInfo.name
        ∧ ((Dir.ReadDirAll r fuel s d).1.heap d).Dirs
            = some (((cs.zip fs).filter (fun x => x.2.isDir)).map Prod.fst)
        ∧ ((Dir.ReadDirAll r fuel s d).1.heap d).Files
            = some (((cs.zip fs).filter (fun x => !x.2.isDir)).map Prod.fst)
        ∧ (((((Dir.ReadDirAll r fuel s d).1.heap d).Dirs.getD []
              ++ ((Dir.ReadDirAll r fuel s d).1.heap d).Files.getD []).map
                (fun c => ((Dir.ReadDirAll r fuel s d).1.heap c).name) : List String)
            : Multiset String) = ((fs.map FileInfo.name : List String) : Multiset String) := by
  obtain ⟨cs, h1, h2, h3, h4, _, _, _⟩ :=
    ReadDirAll_fold_spec d fs
      { s := s.logCall (.readDir (Join [p])), directories := [], files := [], dirs := [] }
      hd hK
  simp only [List.nil_append] at h2 h3 h4
  have hT : Dir.ReadDirAll r fuel s d
      = ((((fs.foldl (Dir.ReadDirAll.step d)
            { s := s.logCall (.readDir (Join [p])), directories := [], files := [],
              dirs := [] }).s.setDirs d
            (((cs.zip fs).filter (fun x => x.2.isDir)).map Prod.fst)).setFiles d
            (((cs.zip fs).filter (fun x => !x.2.isDir)).map Prod.fst)),
          .ok (List.zipWith (direntOf (fs.foldl (Dir.ReadDirAll.step d)
            { s := s.logCall (.readDir (Join [p])), directories := [], files := [],
              dirs := [] }).s.heap) cs fs)) := by
    simp only [Dir.ReadDirAll, hP, hR, h2, h3, h4]
  generalize (fs.foldl (Dir.ReadDirAll.step d)
      { s := s.logCall (.readDir (Join [p])), directories := [], files := [],
        dirs := [] }).s = t at h1 hT
  rw [hT]
  have hname : ∀ c, (((t.setDirs d (((cs.zip fs).filter (fun x => x.2.isDir)).map
      Prod.fst)).setFiles d (((cs.zip fs).filter (fun x => !x.2.isDir)).map Prod.fst)).heap
      c).name = (t.heap c).name := by
    intro c; rw [setFiles_name, setDirs_name]
  have hdirent : direntOf ((t.setDirs d (((cs.zip fs).filter (fun x => x.2.isDir)).map
      Prod.fst)).setFiles d (((cs.zip fs).filter (fun x => !x.2.isDir)).map Prod.fst)).heap
      = direntOf t.heap := by
    funext c f
    simp [direntOf, setFiles_name, setDirs_name, setFiles_inode, setDirs_inode]
  obtain ⟨_, g2, g3, g4, _⟩ := names_of_children t.heap cs fs h1
  refine ⟨cs, ?_, ?_, ?_, ?_, ?_, ?_⟩
  · simpa only [hname] using h1
  · simp only [hdirent]
  · simp only [hdirent]; exact g4
  · simp [setFiles_heap_self, setDirs_heap_self]
  · simp [setFiles_heap_self]
  · simp only [hname, setFiles_heap_self, setDirs_heap_self, Option.getD_some]
    refine Multiset.coe_eq_coe.2 ?_
    rw [← g2, ← List.map_append]
    refine List.Perm.map _ ?_
    have hperm := (List.filter_append_perm (fun x : Nat × FileInfo => x.2.isDir)
      (cs.zip fs)).map Prod.fst
    rw [g3] at hperm
    exact hperm

theorem childrenNamed_exRoot : childrenNamed exRoot 0 := by
  intro name c h
  exfalso
  have hc : ∀ k, exRoot.inodeCache k = if k = FormatUint 101 then some 0 else none :=
    fun _ => rfl
  have hi : (exRoot.heap 0).inode = 101 := by decide
  simp only [Node.GetChild] at h
  rw [hc, hi, if_neg (childKey_ne_FormatUint _ _ _)] at h
  cases h

theorem ReadDirAll_rebuilds_witness :
    (((((Dir.ReadDirAll listRemote 0 exRoot 0).1.heap 0).Dirs.getD []
          ++ ((Dir.ReadDirAll listRemote 0 exRoot 0).1.heap 0).Files.getD []).map
            (fun c => ((Dir.ReadDirAll listRemote 0 exRoot 0).1.heap c).name) : List String)
        : Multiset String) = ((["a", "b.txt"] : List String) : Multiset String) := by
  obtain ⟨_, _, _, _, _, _, h⟩ :=
    ReadDirAll_rebuilds listRemote 0 exRoot 0 "/srv/data" [⟨"a", true⟩, ⟨"b.txt", false⟩]
      (by decide) childrenNamed_exRoot (by decide) rfl
  exact h

/-! ## C8: child lists after a cross-directory rename -/

/-- C8 does not hold of the code. In the example state the file `t` (address 3) is moved
by `Dir.Rename` from directory `a` (address 1, `Files = [3]`) to directory `b` (address 2,
`Files = [4]`).  The call succeeds and the registry finds `t` under `b` only, yet the
second loop of `Dir.Rename` rebuilds `d.Files` of the old parent instead of the list of
the new parent: afterwards `a.Files` is `[3]` again and `b.Files` is still `[4]`. -/
theorem Rename_relists_in_old_parent :
    (exMove.heap 1).Files = some [3] ∧ (exMove.heap 2).Files = some [4]
      ∧ (exMove.heap 1).inode ≠ (exMove.heap 2).inode
      ∧ (Dir.Rename 2 exMove 1 "t" "t" 2).2 = .ok ()
      ∧ Node.GetChild (Dir.Rename 2 exMove 1 "t" "t" 2).1 2 "t" = some 3
      ∧ Node.GetChild (Dir.Rename 2 exMove 1 "t" "t" 2).1 1 "t" = none
      ∧ ((Dir.Rename 2 exMove 1 "t" "t" 2).1.heap 1).Files = some [3]
      ∧ ((Dir.Rename 2 exMove 1 "t" "t" 2).1.heap 2).Files = some [4] := by
  refine ⟨by decide, by decide, by decide, by decide, by decide, by decide, by decide,
    by decide⟩

/-! ## C9: rename round trip -/

/-- The registry after `Rename(A, n, B, y)` and `Rename(B, n, A, x)`, computed from the
descriptions of the two steps, is the registry before. -/
theorem round_trip_cache (c c1 c2 : String → Option Nat) (iA iB iN : Nat) (n : Nat)
    (x y : String)
    (hA : c (childKey iA x) = some n) (hB : c (childKey iB y) = none)
    (hid : c (FormatUint iN) = some n)
    (h1 : ∀ k, c1 k = if k = childKey iB y ∨ k = FormatUint iN
      then some n else if k = childKey iA x then none else c k)
    (h2 : ∀ k, c2 k = if k = childKey iA x ∨ k = FormatUint iN
      then some n else if k = childKey iB y then none else c1 k) :
    c2 = c := by
  funext k
  rw [h2]
  by_cases hkA : k = childKey iA x
  · simp [hkA, hA]
  · by_cases hkI : k = FormatUint iN
    · simp [hkI, hid]
    · by_cases hkB : k = childKey iB y
      · subst hkB
        simp [hB, hkA, hkI]
      · simp [hkA, hkI, hkB, h1]

theorem Rename_cache_some (s : State) (n onode b : Nat) (nname k : String) :
    (Node.Rename s n onode (some b) nname).inodeCache k
      = if k = childKey (s.heap b).inode nname ∨ k = FormatUint (s.heap onode).inode
        then some onode
        else if k = childKey (s.heap n).inode (s.heap onode).name then none
        else s.inodeCache k := by
  rw [Rename_cache]
  simp

/-- A successful `Dir.Rename` found the child under the old name and changed the
registry, and every node apart from its child lists, exactly as `Node.Rename` does. -/
theorem DirRename_registry (fuel : Nat) (s s1 : State) (d nd : Nat) (o nn : String)
    (h : Dir.Rename fuel s d o nn nd = (s1, .ok ())) :
    ∃ onode, Node.GetChild s d o = some onode
      ∧ s1.inodeCache = (Node.Rename s d onode (some nd) nn).inodeCache
      ∧ ∀ p, (s1.heap p).core = ((Node.Rename s d onode (some nd) nn).heap p).core := by
  unfold Dir.Rename at h
  split at h
  · split at h
    · dsimp only at h
      split at h
      · simp at h
      · rename_i onode hget
        refine ⟨onode, hget, ?_⟩
        split at h
        · simp only [Prod.mk.injEq, and_true] at h
          subst h
          exact ⟨rfl, fun _ => rfl⟩
        · split at h
          · split at h
            · simp only [Prod.mk.injEq, and_true] at h
              subst h
              split
              · exact ⟨rfl, fun p => setDirs_core _ _ _ p⟩
              · exact ⟨rfl, fun _ => rfl⟩
            · split at h
              · simp at h
              · simp only [Prod.mk.injEq, and_true] at h
                subst h
                refine ⟨?_, fun p => ?_⟩
                · rw [setDirs_cache]; split <;> rfl
                · rw [setDirs_core]; split
                  · exact setDirs_core _ _ _ p
                  · rfl
          · split at h
            · simp only [Prod.mk.injEq, and_true] at h
              subst h
              split
              · exact ⟨rfl, fun p => setFiles_core _ _ _ p⟩
              · exact ⟨rfl, fun _ => rfl⟩
            · split at h
              · simp at h
              · simp only [Prod.mk.injEq, and_true] at h
                subst h
                refine ⟨?_, fun p => ?_⟩
                · rw [setFiles_cache]; split <;> rfl
                · rw [setFiles_core]; split
                  · exact setFiles_core _ _ _ p
                  · rfl
    · simp only [Prod.mk.injEq] at h
      exact absurd h.2 (Result.fail_ne_ok _ _)
  · simp only [Prod.mk.injEq] at h
    exact absurd h.2 (Result.fail_ne_ok _ _)

@[simp] theorem Rename_freeInode (s : State) (n onode : Nat) (ndir : Option Nat)
    (nname : String) : (Node.Rename s n onode ndir nname).freeInode = s.freeInode := by
  simp [Node.Rename]

@[simp] theorem Rename_calls (s : State) (n onode : Nat) (ndir : Option Nat)
    (nname : String) : (Node.Rename s n onode ndir nname).calls = s.calls := by
  simp [Node.Rename]

theorem State.eq_of_fields (a b : State) (h1 : a.ginode = b.ginode)
    (h2 : a.freeInode = b.freeInode) (h3 : a.inodeCache = b.inodeCache) (h4 : a.heap = b.heap)
    (h5 : a.nextPtr = b.nextPtr) (h6 : a.calls = b.calls) : a = b := by
  cases a; cases b; simp_all

/-- C9. Let `n` be the child `x` of directory `A` (registered under `A` and `x` and under
its inode, with parent `A` and name `x`) and let `B` have no registered child `y`. Then
`Rename` of `n` to `(B, y)` followed by `Rename` back to `(A, x)` restores the state
exactly, `n` is found under `(B, y)` in between, and its inode never changes.  The same
holds for the translator: when both `Dir.Rename` calls return successfully, the registry
and every node record (its child lists apart) are as before the first call. -/
theorem Rename_round_trip (s : State) (A B n : Nat) (x y : String)
    (hA : Node.GetChild s A x = some n) (hB : Node.GetChild s B y = none)
    (hpar : (s.heap n).parent = some A) (hname : (s.heap n).name = x)
    (hid : GetNodeByID s (s.heap n).inode = some n) :
    Node.Rename (Node.Rename s A n (some B) y) B n (some A) x = s
      ∧ Node.GetChild (Node.Rename s A n (some B) y) B y = some n
      ∧ ((Node.Rename s A n (some B) y).heap n).inode = (s.heap n).inode
      ∧ ∀ fuel s1 s2, Dir.Rename fuel s A x y B = (s1, .ok ()) →
          Dir.Rename fuel s1 B y x A = (s2, .ok ()) →
          s2.inodeCache = s.inodeCache ∧ (∀ p, (s2.heap p).core = (s.heap p).core)
            ∧ Node.GetChild s1 B y = some n ∧ (s1.heap n).inode = (s.heap n).inode := by
  simp only [Node.GetChild, GetNodeByID] at hA hB hid
  have hC1 := Rename_cache_some s A n B y
  rw [hname] at hC1
  have hH1 := Rename_heap s A n (some B) y
  have hI1 := Rename_inode s A n (some B) y
  have hn1 : ((Node.Rename s A n (some B) y).heap n).name = y := by rw [hH1]; simp
  have hget1 : Node.GetChild (Node.Rename s A n (some B) y) B y = some n := by
    simp only [Node.GetChild]
    rw [hI1, hC1, if_pos (Or.inl rfl)]
  refine ⟨?_, hget1, hI1 n, ?_⟩
  · refine State.eq_of_fields _ _ (by simp) (by simp) ?_ ?_ (by simp) (by simp)
    · refine round_trip_cache s.inodeCache _ _ _ _ _ n x y hA hB hid hC1 ?_
      intro k
      rw [Rename_cache_some, hI1, hI1, hI1, hn1]
    · rw [Rename_heap, hH1]
      funext p
      by_cases hp : p = n
      · subst hp
        simp only [Function.update_same]
        rw [← hpar, ← hname]
      · simp [Function.update_noteq hp]
  · intro fuel s1 s2 hR1 hR2
    obtain ⟨o1, ho1, hc1, hk1⟩ := DirRename_registry fuel s s1 A B x y hR1
    simp only [Node.GetChild] at ho1
    obtain rfl : n = o1 := by rw [hA] at ho1; simpa using ho1
    have hk1i : ∀ p, (s1.heap p).inode = (s.heap p).inode := by
      intro p
      have := ((core_eq_iff _ _).1 (hk1 p)).1
      rw [this, hI1]
    have hk1n : (s1.heap n).name = y := by
      have := ((core_eq_iff _ _).1 (hk1 n)).2.1
      rw [this, hn1]
    have hget : Node.GetChild s1 B y = some n := by
      simp only [Node.GetChild]
      rw [hk1i, hc1, hC1, if_pos (Or.inl rfl)]
    obtain ⟨o2, ho2, hc2, hk2⟩ := DirRename_registry fuel s1 s2 B A y x hR2
    obtain rfl : n = o2 := by rw [hget] at ho2; simpa using ho2
    refine ⟨?_, ?_, hget, hk1i n⟩
    · rw [hc2]
      refine round_trip_cache s.inodeCache s1.inodeCache _ _ _ _ n x y hA hB hid ?_ ?_
      · intro k; rw [hc1, hC1]
      · intro k
        rw [Rename_cache_some, hk1i, hk1i, hk1i, hk1n]
    · intro p
      rw [hk2 p, Rename_heap]
      by_cases hp : p = n
      · subst hp
        have h0 := (core_eq_iff _ _).1 (hk1 p)
        rw [hH1] at h0
        simp only [Function.update_same] at h0 ⊢
        rw [core_eq_iff]
        simp only
        obtain ⟨a1, _, a3, a4, a5, a6, _⟩ := h0
        exact ⟨a1, hname.symm, a3, a4, a5, a6, hpar.symm⟩
      · rw [Function.update_noteq hp, hk1 p, hH1, Function.update_noteq hp]

theorem Rename_round_trip_witness :
    Node.Rename (Node.Rename exMove 1 3 (some 2) "v") 2 3 (some 1) "t" = exMove
      ∧ (Dir.Rename 2 (Dir.Rename 2 exMove 1 "t" "v" 2).1 2 "v" "t" 1).1.inodeCache
          = exMove.inodeCache
      ∧ ((Dir.Rename 2 exMove 1 "t" "v" 2).1.heap 3).inode = (exMove.heap 3).inode := by
  have h := Rename_round_trip exMove 1 2 3 "t" "v" (by decide) (by decide) (by decide)
    (by decide) (by decide)
  have h2 := h.2.2.2 2 (Dir.Rename 2 exMove 1 "t" "v" 2).1
    (Dir.Rename 2 (Dir.Rename 2 exMove 1 "t" "v" 2).1 2 "v" "t" 1).1
    (Prod.ext rfl (by decide)) (Prod.ext rfl (by decide))
  exact ⟨h.1, h2.1, h2.2.2.2⟩

/-! ## C10: rmdir of a directory with cached children -/

/-- C10. For a `Dir.Remove` request with `Dir` set on a directory `d` whose path can be
computed, when the target child is registered and its cached `Dirs` or `Files` list is
non-empty, the operation returns `ENOTEMPTY` and the whole state is unchanged: no SFTP
call is logged, and the registry and all child lists are as before. -/
theorem Remove_nonempty_refused (r : Remote) (fuel : Nat) (s : State) (d : Nat)
    (name : String) (rm : Nat) (p : String)
    (hP : Node.Path s.heap fuel d = .ok p)
    (hG : Node.GetChild s d name = some rm)
    (hne : (∃ l, (s.heap rm).Dirs = some l ∧ l ≠ [])
      ∨ (∃ l, (s.heap rm).Files = some l ∧ l ≠ [])) :
    Dir.Remove r fuel s d name true = (s, .error .ENOTEMPTY)
      ∧ (Dir.Remove r fuel s d name true).1.calls = s.calls
      ∧ (Dir.Remove r fuel s d name true).1.inodeCache = s.inodeCache
      ∧ ((Dir.Remove r fuel s d name true).1.heap d).Dirs = (s.heap d).Dirs
      ∧ ((Dir.Remove r fuel s d name true).1.heap d).Files = (s.heap d).Files := by
  have hres : Dir.Remove r fuel s d name true = (s, .error .ENOTEMPTY) := by
    simp only [Dir.Remove, hP, hG, if_true]
    rcases hne with ⟨l, hl, hl2⟩ | ⟨l, hl, hl2⟩
    · have : nonEmptyList (s.heap rm).Dirs = true := by
        simp [nonEmptyList, hl, List.length_pos, hl2]
      simp [this]
    · have : nonEmptyList (s.heap rm).Files = true := by
        simp [nonEmptyList, hl, List.length_pos, hl2]
      simp [this]
  rw [hres]
  exact ⟨rfl, rfl, rfl, rfl, rfl⟩

theorem Remove_nonempty_refused_witness :
    Dir.Remove okRemote 0 exMove 0 "a" true = (exMove, .error .ENOTEMPTY)
      ∧ (Dir.Remove okRemote 0 exMove 0 "a" true).1.calls = exMove.calls
      ∧ (Dir.Remove okRemote 0 exMove 0 "a" true).1.inodeCache = exMove.inodeCache
      ∧ ((Dir.Remove okRemote 0 exMove 0 "a" true).1.heap 0).Dirs = (exMove.heap 0).Dirs
      ∧ ((Dir.Remove okRemote 0 exMove 0 "a" true).1.heap 0).Files = (exMove.heap 0).Files :=
  Remove_nonempty_refused okRemote 0 exMove 0 "a" 1 "/srv/data" (by decide) (by decide)
    (Or.inr ⟨[3], by decide, by decide⟩)

/-! ## C11 and C12: removal of an enumerated directory, and the child lists -/

/-- C11 does not hold of the code. The directory `a` of the example state was enumerated
by `ReadDirAll` (its `Dirs` and `Files` are present and empty) and is registered under
the root, and the remote `RemoveDirectory` succeeds.  `Dir.Remove` issues the remote
removal and deletes both registry entries of `a`, but then, in its loop over `*d.Dirs`,
finds `directory.Files != nil` and returns `ENOTEMPTY`; `a` stays in the `Dirs` list of
the root.  The same request on a directory whose lists are absent succeeds. -/
theorem Remove_enumerated_dir_reports_notempty :
    (exEmptyDir.heap 1).Dirs = some [] ∧ (exEmptyDir.heap 1).Files = some []
      ∧ Node.GetChild exEmptyDir 0 "a" = some 1
      ∧ (Dir.Remove okRemote 1 exEmptyDir 0 "a" true).2 = .error .ENOTEMPTY
      ∧ (Dir.Remove okRemote 1 exEmptyDir 0 "a" true).1.calls
          = exEmptyDir.calls ++ [.removeDirectory "/srv/data/a"]
      ∧ Node.GetChild (Dir.Remove okRemote 1 exEmptyDir 0 "a" true).1 0 "a" = none
      ∧ GetNodeByID (Dir.Remove okRemote 1 exEmptyDir 0 "a" true).1 102 = none
      ∧ ((Dir.Remove okRemote 1 exEmptyDir 0 "a" true).1.heap 0).Dirs = some [1]
      ∧ (Dir.Remove okRemote 1 exMkdir 0 "a" true).2 = .ok ()
      ∧ ((Dir.Remove okRemote 1 exMkdir 0 "a" true).1.heap 0).Dirs = some [] := by
  refine ⟨by decide, by decide, by decide, by decide, by decide, by decide, by decide,
    by decide, by decide, by decide⟩

/-- C12 does not hold of the code. The example state is reached from the root by `Mkdir`,
`Mkdir`, `Create`, `Create`; after the successful `Dir.Rename` of the file `t`
(address 3) from `a` (address 1) to `b` (address 2) the `Files` list of `a` still holds
`t`, although the parent of `t` is `b` and `a.GetChild("t")` finds nothing. -/
theorem Rename_leaves_stale_child :
    (Dir.Rename 2 exMove 1 "t" "t" 2).2 = .ok ()
      ∧ ((Dir.Rename 2 exMove 1 "t" "t" 2).1.heap 1).Files = some [3]
      ∧ ((Dir.Rename 2 exMove 1 "t" "t" 2).1.heap 3).parent = some 2
      ∧ ((Dir.Rename 2 exMove 1 "t" "t" 2).1.heap 3).name = "t"
      ∧ Node.GetChild (Dir.Rename 2 exMove 1 "t" "t" 2).1 1 "t" = none := by
  refine ⟨by decide, by decide, by decide, by decide, by decide⟩

/-! ## C18: the string keys of the registry -/

/-- C18. Child keys `FormatUint(p) + "_" + a` determine the pair `(p, a)`, whatever
characters the names contain; a child key is never an inode key; inode keys determine the
inode.  Hence `Set` and `Delete` on one key leave what is read under the key of any other
(parent, name) pair or of any inode as it was, and `GetChild` after a `Set` on a child
key sees the new entry only under that very pair. -/
theorem registry_keys_unambiguous (p q i : Nat) (a b : String) (c : String → Option Nat)
    (v : Nat) :
    (childKey p a = childKey q b ↔ p = q ∧ a = b)
      ∧ childKey p a ≠ FormatUint i
      ∧ (FormatUint p = FormatUint q ↔ p = q)
      ∧ Cache.Set c (childKey p a) v (childKey q b)
          = (if p = q ∧ a = b then some v else c (childKey q b))
      ∧ Cache.Delete c (childKey p a) (childKey q b)
          = (if p = q ∧ a = b then none else c (childKey q b))
      ∧ Cache.Set c (childKey p a) v (FormatUint i) = c (FormatUint i)
      ∧ Cache.Delete c (childKey p a) (FormatUint i) = c (FormatUint i)
      ∧ Cache.Set c (FormatUint i) v (childKey p a) = c (childKey p a)
      ∧ Cache.Delete c (FormatUint i) (childKey p a) = c (childKey p a)
      ∧ Cache.Set c (FormatUint p) v (FormatUint q) = (if p = q then some v else c (FormatUint q))
      ∧ Cache.Delete c (FormatUint p) (FormatUint q)
          = (if p = q then none else c (FormatUint q)) := by
  have h1 : childKey p a = childKey q b ↔ p = q ∧ a = b :=
    ⟨childKey_injective, fun h => by rw [h.1, h.2]⟩
  have h1b : childKey q b = childKey p a ↔ p = q ∧ a = b := by
    rw [eq_comm]; exact h1
  have h2 : FormatUint p = FormatUint q ↔ p = q :=
    ⟨FormatUint_injective, fun h => by rw [h]⟩
  have h2b : FormatUint q = FormatUint p ↔ p = q := by
    rw [eq_comm]; exact h2
  have h3 : FormatUint i ≠ childKey p a := fun h => childKey_ne_FormatUint p a i h.symm
  refine ⟨h1, childKey_ne_FormatUint p a i, h2, ?_, ?_, ?_, ?_, ?_, ?_, ?_, ?_⟩
  · simp only [Cache.Set, h1b]
  · simp only [Cache.Delete, h1b]
  · simp [Cache.Set, h3]
  · simp [Cache.Delete, h3]
  · simp [Cache.Set, childKey_ne_FormatUint p a i]
  · simp [Cache.Delete, childKey_ne_FormatUint p a i]
  · simp only [Cache.Set, h2b]
  · simp only [Cache.Delete, h2b]

/-! ## C17: parent chains reach a root -/

theorem ascends_congr (h h2 : Nat → Node) (r : Nat) (hr : (h2 r).isroot = (h r).isroot) :
    ∀ (below : List Nat) (p : Nat),
      (∀ x ∈ below, (h2 x).isroot = (h x).isroot ∧ (h2 x).parent = (h x).parent) →
      ascends h p below r → ascends h2 p below r := by
  intro below
  induction below with
  | nil =>
    intro p _ hc
    obtain ⟨rfl, hroot⟩ := hc
    exact ⟨rfl, by rw [hr, hroot]⟩
  | cons x xs ih =>
    intro p hag hc
    obtain ⟨rfl, hx, q, hq, hrest⟩ := hc
    obtain ⟨e1, e2⟩ := hag p (List.mem_cons_self _ _)
    exact ⟨rfl, by rw [e1, hx], q, by rw [e2, hq],
      ih q (fun y hy => hag y (List.mem_cons_of_mem _ hy)) hrest⟩

theorem ascends_nonroot (h : Nat → Node) (r : Nat) : ∀ (below : List Nat) (p : Nat),
    ascends h p below r → ∀ x ∈ below, (h x).isroot = false := by
  intro below
  induction below with
  | nil => intro p _ x hx; simp at hx
  | cons y ys ih =>
    intro p hc x hx
    obtain ⟨rfl, hy, q, _, hrest⟩ := hc
    rcases List.mem_cons.1 hx with rfl | hm
    · exact hy
    · exact ih q hrest x hm

/-- The fields `isroot` and `parent` of the node created by `NewNode`. -/
theorem NewNode_shape (s : State) (a : NewArgs) :
    ((NewNode s a.inode a.parent a.name a.isdir a.isroot).1.heap s.nextPtr).isroot = a.isroot
      ∧ ((NewNode s a.inode a.parent a.name a.isdir a.isroot).1.heap s.nextPtr).parent
          = a.parent := by
  obtain ⟨i, parent, name, isdir, isroot⟩ := a
  by_cases hi : i > 0 <;> cases isdir <;> cases isroot <;> simp [NewNode, genInode, hi]

theorem TreeInv_newNode (s : State) (a : NewArgs) (hI : TreeInv s)
    (hg : (RegOp.newNode a).treeGuard s) : TreeInv ((RegOp.newNode a).apply s) := by
  simp only [RegOp.treeGuard] at hg
  obtain ⟨hroot, hpar⟩ := NewNode_shape s a
  have hold := NewNode_heap_old s a.inode a.parent a.name a.isdir a.isroot
  have hnp : (NewNode s a.inode a.parent a.name a.isdir a.isroot).1.nextPtr = s.nextPtr + 1 :=
    NewNode_nextPtr _ _ _ _ _ _
  simp only [RegOp.apply]
  generalize (NewNode s a.inode a.parent a.name a.isdir a.isroot).1 = t
    at hroot hpar hold hnp
  have lift : ∀ p, p < s.nextPtr →
      ∃ below r, ascends t.heap p below r ∧ (∀ x ∈ below, x < t.nextPtr) ∧ r < t.nextPtr := by
    intro p hp
    obtain ⟨below, r, hc, hb, hr⟩ := hI p hp
    refine ⟨below, r, ?_, fun x hx => by have := hb x hx; omega, by omega⟩
    refine ascends_congr s.heap t.heap r (by rw [hold r (Nat.ne_of_lt hr)]) below p ?_ hc
    intro x hx
    rw [hold x (Nat.ne_of_lt (hb x hx))]
    exact ⟨rfl, rfl⟩
  intro p hp
  rw [hnp] at hp
  by_cases hpn : p = s.nextPtr
  · subst hpn
    cases hr : a.isroot with
    | true =>
      exact ⟨[], s.nextPtr, ⟨rfl, by rw [hroot, hr]⟩, by simp, by omega⟩
    | false =>
      obtain ⟨q, hq, hqlt⟩ := hg hr
      obtain ⟨below, r, hc, hb, hrlt⟩ := lift q hqlt
      refine ⟨s.nextPtr :: below, r, ⟨rfl, by rw [hroot, hr], q, by rw [hpar, hq], hc⟩, ?_, hrlt⟩
      intro x hx
      rcases List.mem_cons.1 hx with rfl | hm
      · omega
      · exact hb x hm
  · exact lift p (by omega)

/-- The chain of a node after `Rename`: up to the moved node it is the old chain, from
the moved node on it is the chain of the new parent. -/
theorem rename_chain (h h2 : Nat → Node) (onode b rB N : Nat) (belowB : List Nat)
    (hroot : ∀ y, (h2 y).isroot = (h y).isroot)
    (hpar : ∀ y, y ≠ onode → (h2 y).parent = (h y).parent)
    (hnew : (h2 onode).parent = some b)
    (hB : ascends h2 b belowB rB) (hBb : ∀ x ∈ belowB, x < N) (hBr : rB < N) (r : Nat)
    (hr : r < N) :
    ∀ (below : List Nat) (p : Nat), ascends h p below r → (∀ x ∈ below, x < N) →
      ∃ below2 r2, ascends h2 p below2 r2 ∧ (∀ x ∈ below2, x < N) ∧ r2 < N := by
  intro below
  induction below with
  | nil =>
    intro p hc _
    obtain ⟨rfl, hpr⟩ := hc
    exact ⟨[], p, ⟨rfl, by rw [hroot, hpr]⟩, by simp, hr⟩
  | cons x xs ih =>
    intro p hc hb
    obtain ⟨rfl, hx, q, hq, hrest⟩ := hc
    by_cases hpo : p = onode
    · subst hpo
      refine ⟨p :: belowB, rB, ⟨rfl, by rw [hroot, hx], b, hnew, hB⟩, ?_, hBr⟩
      intro y hy
      rcases List.mem_cons.1 hy with rfl | hm
      · exact hb _ (List.mem_cons_self _ _)
      · exact hBb y hm
    · obtain ⟨below2, r2, hc2, hb2, hr2⟩ :=
        ih q hrest (fun y hy => hb y (List.mem_cons_of_mem _ hy))
      refine ⟨p :: below2, r2, ⟨rfl, by rw [hroot, hx], q, by rw [hpar p hpo, hq], hc2⟩, ?_, hr2⟩
      intro y hy
      rcases List.mem_cons.1 hy with rfl | hm
      · exact hb _ (List.mem_cons_self _ _)
      · exact hb2 y hm

theorem TreeInv_rename (s : State) (n onode : Nat) (ndir : Option Nat) (nname : String)
    (hI : TreeInv s) (hg : (RegOp.rename n onode ndir nname).treeGuard s) :
    TreeInv ((RegOp.rename n onode ndir nname).apply s) := by
  simp only [RegOp.treeGuard] at hg
  have hH := Rename_heap s n onode ndir nname
  have hnp := Rename_nextPtr s n onode ndir nname
  simp only [RegOp.apply]
  generalize Node.Rename s n onode ndir nname = t at hH hnp
  have hroot : ∀ y, (t.heap y).isroot = (s.heap y).isroot := by
    intro y
    rw [hH]
    by_cases hy : y = onode
    · subst hy; simp
    · simp [Function.update_noteq hy]
  have hpar : ∀ y, y ≠ onode → (t.heap y).parent = (s.heap y).parent := by
    intro y hy
    rw [hH]; simp [Function.update_noteq hy]
  have hnew : (t.heap onode).parent = ndir := by rw [hH]; simp
  intro p hp
  rw [hnp] at hp ⊢
  obtain ⟨below, r, hc, hb, hr⟩ := hI p hp
  by_cases hmem : onode ∈ below
  · have hnr := ascends_nonroot s.heap r below p hc onode hmem
    obtain ⟨b, hb1, hblt, hfree⟩ := hg hnr
    obtain ⟨belowB, rB, hcB, hbB, hrB⟩ := hI b hblt
    have hcB2 : ascends t.heap b belowB rB := by
      refine ascends_congr s.heap t.heap rB (hroot rB) belowB b ?_ hcB
      intro x hx
      refine ⟨hroot x, hpar x ?_⟩
      rintro rfl
      exact hfree belowB rB hcB hx
    exact rename_chain s.heap t.heap onode b rB s.nextPtr belowB hroot hpar
      (by rw [hnew, hb1]) hcB2 hbB hrB r hr below p hc hb
  · refine ⟨below, r, ?_, hb, hr⟩
    refine ascends_congr s.heap t.heap r (hroot r) below p ?_ hc
    intro x hx
    refine ⟨hroot x, hpar x ?_⟩
    rintro rfl
    exact hmem hx

theorem TreeInv_run (ops : List RegOp) : ∀ s : State, TreeInv s → treeGuardedRun s ops →
    TreeInv (runReg s ops) := by
  induction ops with
  | nil => intro s hI _; exact hI
  | cons op ops ih =>
    intro s hI hg
    obtain ⟨hg1, hg2⟩ := hg
    have hstep : TreeInv (op.apply s) := by
      cases op with
      | newNode a => exact TreeInv_newNode s a hI hg1
      | rename n onode ndir nname => exact TreeInv_rename s n onode ndir nname hI hg1
      | remove n =>
        intro p hp
        simp only [RegOp.apply, Remove_heap, Remove_nextPtr] at hp ⊢
        exact hI p hp
    exact ih _ hstep hg2

/-- On a chain that reaches a root, `Path` and `LocalPath` return with fuel equal to the
length of the chain. -/
theorem Path_ok_of_ascends (h : Nat → Node) (p r : Nat) (below : List Nat)
    (hc : ascends h p below r) :
    (∃ path, Node.Path h below.length p = .ok path)
      ∧ ∃ lpath, Node.LocalPath h below.length p = .ok lpath := by
  cases below with
  | nil =>
    obtain ⟨rfl, hr⟩ := hc
    exact ⟨⟨(h p).path, by simp [Node.Path, hr]⟩,
      ⟨(h p).localpath, by simp [Node.LocalPath, hr]⟩⟩
  | cons x xs =>
    obtain ⟨rfl, hx, q, hq, hrest⟩ := hc
    have hk : xs.length < (p :: xs).length := by simp
    refine ⟨⟨Join (reverse ([(h p).name] ++ xs.map (fun p => (h p).name) ++ [(h r).path])), ?_⟩,
      ⟨Join (reverse ([(h p).name] ++ xs.map (fun p => (h p).name) ++ [(h r).localpath])),
        ?_⟩⟩
    · simp only [Node.Path, hx, hq, climb_ascends _ h r xs q _ _ hrest hk,
        Bool.false_eq_true, if_false]
    · simp only [Node.LocalPath, hx, hq, climb_ascends _ h r xs q _ _ hrest hk,
        Bool.false_eq_true, if_false]

/-- C17, for calls that keep the tree a tree. Starting with no node allocated, after any
sequence of `NewNode`, `Node.Rename` and `Node.Remove` calls in which every `NewNode`
creates a root or a node under an allocated parent and every `Rename` moves a non-root node
under an allocated node whose parent chain does not pass through the moved node, following
`parent` from any allocated node reaches a root node after finitely many steps, and `Path`
and `LocalPath` return on it (fuel equal to the length of the chain suffices). -/
theorem parent_chains_reach_root (s : State) (ops : List RegOp) (hp : s.nextPtr = 0)
    (hg : treeGuardedRun s ops) (p : Nat) (hlt : p < (runReg s ops).nextPtr) :
    ∃ below r, ascends (runReg s ops).heap p below r
      ∧ (∃ path, Node.Path (runReg s ops).heap below.length p = .ok path)
      ∧ ∃ lpath, Node.LocalPath (runReg s ops).heap below.length p = .ok lpath := by
  have h0 : TreeInv s := by
    intro q hq
    omega
  obtain ⟨below, r, hc, _, _⟩ := TreeInv_run ops s h0 hg p hlt
  exact ⟨below, r, hc, Path_ok_of_ascends _ p r below hc⟩

theorem parent_chains_reach_root_witness :
    ∃ below r, ascends (runReg (InitInode State.init 100) exOps).heap 2 below r
      ∧ (∃ path, Node.Path (runReg (InitInode State.init 100) exOps).heap below.length 2
          = .ok path)
      ∧ ∃ lpath, Node.LocalPath (runReg (InitInode State.init 100) exOps).heap below.length 2
          = .ok lpath :=
  parent_chains_reach_root (InitInode State.init 100) exOps rfl
    ⟨fun h => absurd h (by decide), fun _ => ⟨0, rfl, by decide⟩,
      fun _ => ⟨1, rfl, by decide⟩,
      fun _ => ⟨0, rfl, by decide, fun below r h => by
        cases below with
        | nil => simp
        | cons x xs =>
          obtain ⟨hx, hroot, _⟩ := h
          subst hx
          exact absurd hroot (by decide)⟩,
      trivial, trivial⟩ 2 (by decide)

theorem climb_self_parent (field : Node → String) (h : Nat → Node) (n : Nat)
    (hr : (h n).isroot = false) (hp : (h n).parent = some n) :
    ∀ (fuel : Nat) (acc : List String), Node.climb field h fuel (h n) acc = .timeout := by
  intro fuel
  induction fuel with
  | zero => intro acc; rfl
  | succ k ih =>
    intro acc
    simp only [Node.climb, hr, hp, Bool.false_eq_true, if_false]
    exact ih _

/-- C17 fails for unrestricted calls. `Node.Rename` accepts the moved node itself as
its new parent: after creating the root and the directory `a` and renaming `a` under `a`,
following `parent` from `a` never reaches a root and no amount of fuel lets `Path` or
`LocalPath` return.  And `NewNode` accepts a node without parent that is not a root, on
which `Path` dereferences nil. -/
theorem rename_under_itself_cycles :
    ((runReg (InitInode State.init 100)
        [.newNode ⟨0, none, "/srv/data", true, true⟩, .newNode ⟨0, some 0, "a", true, false⟩,
          .rename 0 1 (some 1) "a"]).heap 1).parent = some 1
      ∧ (¬ ∃ fuel path, Node.Path (runReg (InitInode State.init 100)
        [.newNode ⟨0, none, "/srv/data", true, true⟩, .newNode ⟨0, some 0, "a", true, false⟩,
          .rename 0 1 (some 1) "a"]).heap fuel 1 = .ok path)
      ∧ (¬ ∃ fuel path, Node.LocalPath (runReg (InitInode State.init 100)
        [.newNode ⟨0, none, "/srv/data", true, true⟩, .newNode ⟨0, some 0, "a", true, false⟩,
          .rename 0 1 (some 1) "a"]).heap fuel 1 = .ok path)
      ∧ (¬ ∃ fuel path, Node.Path (runReg (InitInode State.init 100)
        [.newNode ⟨0, none, "x", false, false⟩]).heap fuel 0 = .ok path) := by
  refine ⟨by decide, ?_, ?_, ?_⟩
  · rintro ⟨fuel, path, h⟩
    rw [Node.Path, if_neg (by decide)] at h
    have hp : ((runReg (InitInode State.init 100)
        [.newNode ⟨0, none, "/srv/data", true, true⟩, .newNode ⟨0, some 0, "a", true, false⟩,
          .rename 0 1 (some 1) "a"]).heap 1).parent = some 1 := by decide
    simp only [hp] at h
    rw [climb_self_parent _ _ 1 (by decide) (by decide)] at h
    simp at h
  · rintro ⟨fuel, path, h⟩
    rw [Node.LocalPath, if_neg (by decide)] at h
    have hp : ((runReg (InitInode State.init 100)
        [.newNode ⟨0, none, "/srv/data", true, true⟩, .newNode ⟨0, some 0, "a", true, false⟩,
          .rename 0 1 (some 1) "a"]).heap 1).parent = some 1 := by decide
    simp only [hp] at h
    rw [climb_self_parent _ _ 1 (by decide) (by decide)] at h
    simp at h
  · rintro ⟨fuel, path, h⟩
    rw [Node.Path, if_neg (by decide)] at h
    have hp : ((runReg (InitInode State.init 100)
        [.newNode ⟨0, none, "x", false, false⟩]).heap 0).parent = none := by decide
    simp only [hp] at h
    simp at h

/-! ## C13 and C14: opening and reading a file -/

/-- C13. For a file whose path can be computed and every flags value: with the append
flag set `File.Open` returns `ENOTSUP` and the state is unchanged (no `OpenFile` call is
logged); without it, when the remote open succeeds, exactly one `OpenFile` call is logged,
a handle on the opened file is returned exactly when the access mode is read-only or
write-only, read+write gets `ENOTSUP`, and the reply flags are `OpenPurgeAttr` exactly
for a write-only access mode. -/
theorem Open_flags (fr : FileRemote) (fuel : Nat) (s : State) (f flags : Nat) (p : String)
    (hP : Node.Path s.heap fuel f = .ok p) :
    (flags &&& OpenAppend = OpenAppend →
        File.Open fr fuel s f flags = (s, .error .ENOTSUP, 0))
      ∧ (flags &&& OpenAppend ≠ OpenAppend → ∀ file, fr.OpenFile p flags = .ok file →
        (File.Open fr fuel s f flags).1 = s.logCall (.openFile p flags)
          ∧ ((∃ fh, (File.Open fr fuel s f flags).2.1 = .ok fh)
              ↔ (flags &&& OpenAccessModeMask = OpenReadOnly
                  ∨ flags &&& OpenAccessModeMask = OpenWriteOnly))
          ∧ ((flags &&& OpenAccessModeMask = OpenReadOnly
                ∨ flags &&& OpenAccessModeMask = OpenWriteOnly) →
              (File.Open fr fuel s f flags).2.1 = .ok { node := f, file := some file })
          ∧ (flags &&& OpenAccessModeMask = OpenReadWrite →
              (File.Open fr fuel s f flags).2.1 = .error .ENOTSUP)
          ∧ ((File.Open fr fuel s f flags).2.2 = OpenPurgeAttr
              ↔ flags &&& OpenAccessModeMask = OpenWriteOnly)) := by
  refine ⟨fun ha => by simp [File.Open, ha], ?_⟩
  intro ha file hfile
  have e01 : OpenWriteOnly ≠ OpenReadOnly := by decide
  have e02 : OpenReadWrite ≠ OpenReadOnly := by decide
  have e12 : OpenReadWrite ≠ OpenWriteOnly := by decide
  have ep : (0 : Nat) ≠ OpenPurgeAttr := by decide
  by_cases h0 : flags &&& OpenAccessModeMask = OpenReadOnly
  · have hval : File.Open fr fuel s f flags
        = (s.logCall (.openFile p flags), .ok { node := f, file := some file }, 0) := by
      simp [File.Open, ha, hP, hfile, IsReadOnly, h0]
    rw [hval, h0]
    exact ⟨rfl, ⟨fun _ => Or.inl rfl, fun _ => ⟨_, rfl⟩⟩, fun _ => rfl,
      fun h => absurd h.symm e02, ⟨fun h => absurd h ep, fun h => absurd h.symm e01⟩⟩
  · by_cases h1 : flags &&& OpenAccessModeMask = OpenWriteOnly
    · have hval : File.Open fr fuel s f flags
          = (s.logCall (.openFile p flags), .ok { node := f, file := some file },
              OpenPurgeAttr) := by
        simp [File.Open, ha, hP, hfile, IsReadOnly, IsWriteOnly, h1, e01]
      rw [hval, h1]
      exact ⟨rfl, ⟨fun _ => Or.inr rfl, fun _ => ⟨_, rfl⟩⟩, fun _ => rfl,
        fun h => absurd h.symm e12, ⟨fun _ => rfl, fun _ => rfl⟩⟩
    · have hval : File.Open fr fuel s f flags
          = (s.logCall (.openFile p flags), .error .ENOTSUP, 0) := by
        simp [File.Open, ha, hP, hfile, IsReadOnly, IsWriteOnly, h0, h1]
      rw [hval]
      refine ⟨rfl, ⟨?_, ?_⟩, ?_, fun _ => rfl, ⟨fun h => absurd h ep, fun h => absurd h h1⟩⟩
      · rintro ⟨fh, hfh⟩
        simp at hfh
      · rintro (h | h)
        · exact absurd h h0
        · exact absurd h h1
      · rintro (h | h)
        · exact absurd h h0
        · exact absurd h h1

theorem Open_flags_witness :
    (File.Open helloFiles 2 exTree 2 1).2.1 = .ok { node := 2, file := some 7 }
      ∧ (File.Open helloFiles 2 exTree 2 1).2.2 = OpenPurgeAttr
      ∧ File.Open helloFiles 2 exTree 2 1025 = (exTree, .error .ENOTSUP, 0) :=
  ⟨((Open_flags helloFiles 2 exTree 2 1 "/srv/data/a/b.txt" (by decide)).2 (by decide) 7
      rfl).2.2.1 (Or.inr (by decide)),
    ((Open_flags helloFiles 2 exTree 2 1 "/srv/data/a/b.txt" (by decide)).2 (by decide) 7
      rfl).2.2.2.2.2 (by decide),
    (Open_flags helloFiles 2 exTree 2 1025 "/srv/data/a/b.txt" (by decide)).1 (by decide)⟩

/-- C14 does not hold of the code. On an open handle, a read request of size 8 for which
the remote read delivers the 5 bytes of `hello` is answered with 8 bytes: the 5 bytes
followed by 3 zero bytes of the buffer allocated with `make([]byte, req.Size)`; the count
returned by `Read` is not used to cut `resp.Data`. -/
theorem Read_pads_short_read :
    helloFiles.ReadAt 7 0 8 = [104, 101, 108, 108, 111]
      ∧ (File.Read helloFiles 2 exTree { node := 2, file := some 7 } 0 8 0).2.2
          = .ok [104, 101, 108, 108, 111, 0, 0, 0]
      ∧ (File.Read helloFiles 2 exTree { node := 2, file := none } 0 8 0).2.2
          = .ok [104, 101, 108, 108, 111, 0, 0, 0] := by
  refine ⟨rfl, by decide, by decide⟩

/-! ## C15 and C16: mount counting and mountpoints of the volume driver -/

/-- C15 does not hold of the code. After two `Mount("vol1")` calls the session has count 2
and is serving.  `Unmount` calls `Unmount` on the session and decrements only when the
count is exactly 1, so the first `Unmount("vol1")` leaves the count at 2, and so does the
second: the session is still serving and no session `Unmount` was ever called.  Only
after a single `Mount` does `Unmount` tear the session down. -/
theorem Unmount_never_counts_down :
    ((mountAll okHost exDriver ["vol1", "vol1"]).servers "/mnt/vol1").map
        (fun sv => (sv.connections, sv.serving)) = some (2, true)
      ∧ ((unmountAll okHost (mountAll okHost exDriver ["vol1", "vol1"]) ["vol1"]).servers
          "/mnt/vol1").map (fun sv => (sv.connections, sv.serving)) = some (2, true)
      ∧ ((unmountAll okHost (mountAll okHost exDriver ["vol1", "vol1"])
          ["vol1", "vol1"]).servers "/mnt/vol1").map
            (fun sv => (sv.connections, sv.serving)) = some (2, true)
      ∧ DriverCall.sessionUnmount "/mnt/vol1"
          ∉ (unmountAll okHost (mountAll okHost exDriver ["vol1", "vol1"])
              ["vol1", "vol1"]).calls
      ∧ ((unmountAll okHost (mountAll okHost exDriver ["vol1"]) ["vol1"]).servers
          "/mnt/vol1").map (fun sv => (sv.connections, sv.serving)) = some (0, false)
      ∧ DriverCall.sessionUnmount "/mnt/vol1"
          ∈ (unmountAll okHost (mountAll okHost exDriver ["vol1"]) ["vol1"]).calls := by
  refine ⟨by decide, by decide, by decide, by decide, by decide, by decide⟩

theorem Mount_create_result (h : Host) (d : Driver) (name mount m : String) (d1 : Driver)
    (hm : Driver.Mount.create h d name mount = (d1, .ok m)) : m = mount := by
  unfold Driver.Mount.create at hm
  dsimp only at hm
  split at hm
  · split at hm
    · simp at hm
    · split at hm
      · simp at hm
      · simp only [Prod.mk.injEq, Except.ok.injEq] at hm
        exact hm.2.symm
  · simp at hm
  · simp at hm
  · split at hm
    · simp at hm
    · simp only [Prod.mk.injEq, Except.ok.injEq] at hm
      exact hm.2.symm

/-- C16. For every volume name, `Driver.Path(name)` is
`path.Join(MountPoint, url.QueryEscape(name))` and leaves the driver as it was; whenever
`Driver.Mount(name)` succeeds (joining an existing session or creating one) the mountpoint
it returns is that same string; and for the name `proj/2024` the path is
`Join(MountPoint, "proj%2F2024")`. -/
theorem Path_is_mountpoint (h : Host) (d : Driver) (name : String) :
    (Driver.Path d name).2 = Join [d.config.MountPoint, QueryEscape name]
      ∧ (Driver.Path d name).1 = d
      ∧ (match (Driver.Mount h d name).2 with
          | .ok m => m = (Driver.Path d name).2
          | .error _ => True)
      ∧ QueryEscape "proj/2024" = "proj%2F2024"
      ∧ (Driver.Path d "proj/2024").2 = Join [d.config.MountPoint, "proj%2F2024"]
      ∧ (Driver.Mount okHost exDriver "proj/2024").2 = .ok "/mnt/proj%2F2024" := by
  have hq : QueryEscape "proj/2024" = "proj%2F2024" := by decide
  refine ⟨rfl, rfl, ?_, hq, by simp only [Driver.Path, Driver.mountpoint, hq], by rfl⟩
  cases hres : Driver.Mount h d name with
  | mk d1 res =>
    cases res with
    | error e => trivial
    | ok m =>
      simp only [Driver.Path]
      unfold Driver.Mount at hres
      dsimp only at hres
      split at hres
      · split at hres
        · simp only [Prod.mk.injEq, Except.ok.injEq] at hres
          exact hres.2.symm
        · exact Mount_create_result h d name _ m d1 hres
      · exact Mount_create_result h d name _ m d1 hres

/-! ## C19: where mountpoints lie -/

theorem hexDigit_ne_slash (d : Nat) (hd : d < 16) : hexDigit d ≠ '/' := by
  interval_cases d <;> decide

theorem escapeByte_no_slash (b : UInt8) : '/' ∉ escapeByte b := by
  have h1 : b.toNat / 16 < 16 := by
    have := b.toNat_lt
    omega
  have h2 : b.toNat % 16 < 16 := Nat.mod_lt _ (by decide)
  simp only [escapeByte, List.mem_cons, List.mem_singleton, List.not_mem_nil, or_false, not_or]
  exact ⟨by decide, (hexDigit_ne_slash _ h1).symm, (hexDigit_ne_slash _ h2).symm⟩

theorem escapeBytes_no_slash (bs : List UInt8) : '/' ∉ escapeBytes bs := by
  induction bs with
  | nil => simp [escapeBytes]
  | cons b bs ih =>
    simp only [escapeBytes, List.mem_append, not_or]
    exact ⟨escapeByte_no_slash b, ih⟩

theorem escapeBytes_head (bs : List UInt8) (hb : bs ≠ []) :
    ∃ t, escapeBytes bs = '%' :: t := by
  cases bs with
  | nil => exact absurd rfl hb
  | cons b bs =>
    exact ⟨hexDigit (b.toNat / 16) :: hexDigit (b.toNat % 16) :: escapeBytes bs,
      by simp [escapeBytes, escapeByte]⟩

theorem utf8EncodeChar_ne_nil (c : Char) : String.utf8EncodeChar c ≠ [] := by
  intro h
  have := String.length_utf8EncodeChar c
  rw [h] at this
  have hpos := Char.utf8Size_pos c
  simp at this
  omega

/-- The escape of a character is the character itself, a `+`, or starts with `%`. -/
theorem escapeChar_cases (c : Char) :
    (escapeChar c = [c] ∧ unreserved c = true) ∨ escapeChar c = ['+']
      ∨ ∃ t, escapeChar c = '%' :: t := by
  unfold escapeChar
  split
  · exact Or.inl ⟨rfl, by assumption⟩
  · split
    · exact Or.inr (Or.inl rfl)
    · exact Or.inr (Or.inr (escapeBytes_head _ (utf8EncodeChar_ne_nil c)))

theorem escapeChar_no_slash (c : Char) : '/' ∉ escapeChar c := by
  unfold escapeChar
  split
  · rename_i hu
    simp only [List.mem_singleton]
    rintro rfl
    exact absurd hu (by decide)
  · split
    · decide
    · exact escapeBytes_no_slash _

theorem escapeChars_no_slash (l : List Char) : '/' ∉ escapeChars l := by
  induction l with
  | nil => simp [escapeChars]
  | cons c cs ih =>
    simp only [escapeChars, List.mem_append, not_or]
    exact ⟨escapeChar_no_slash c, ih⟩

theorem escapeChar_ne_nil (c : Char) : escapeChar c ≠ [] := by
  rcases escapeChar_cases c with h | h | ⟨t, h⟩ <;> simp [h]

theorem escapeChars_eq_nil (l : List Char) (h : escapeChars l = []) : l = [] := by
  cases l with
  | nil => rfl
  | cons c cs =>
    simp only [escapeChars, List.append_eq_nil] at h
    exact absurd h.1 (escapeChar_ne_nil c)

/-- An escape that starts with a dot comes from a dot. -/
theorem escapeChars_dot (c : Char) (cs rest : List Char)
    (h : escapeChars (c :: cs) = '.' :: rest) : c = '.' ∧ escapeChars cs = rest := by
  simp only [escapeChars] at h
  rcases escapeChar_cases c with ⟨h1, _⟩ | h1 | ⟨t, h1⟩
  · rw [h1] at h
    simp only [List.singleton_append, List.cons.injEq] at h
    exact h
  · rw [h1] at h
    simp only [List.singleton_append, List.cons.injEq] at h
    exact absurd h.1 (by decide)
  · rw [h1] at h
    simp only [List.cons_append, List.cons.injEq] at h
    exact absurd h.1 (by decide)

theorem QueryEscape_component (name : String) (h0 : name ≠ "") (h1 : name ≠ ".")
    (h2 : name ≠ "..") :
    (QueryEscape name).data ≠ [] ∧ '/' ∉ (QueryEscape name).data
      ∧ (QueryEscape name).data ≠ ['.'] ∧ (QueryEscape name).data ≠ ['.', '.'] := by
  have hd : (QueryEscape name).data = escapeChars name.data := rfl
  rw [hd]
  refine ⟨?_, escapeChars_no_slash _, ?_, ?_⟩
  · intro h
    exact h0 (String.ext (escapeChars_eq_nil _ h))
  · intro h
    cases hn : name.data with
    | nil => rw [hn] at h; simp [escapeChars] at h
    | cons c cs =>
      rw [hn] at h
      obtain ⟨rfl, hr⟩ := escapeChars_dot c cs [] h
      have := escapeChars_eq_nil cs hr
      subst this
      exact h1 (String.ext hn)
  · intro h
    cases hn : name.data with
    | nil => rw [hn] at h; simp [escapeChars] at h
    | cons c cs =>
      rw [hn] at h
      obtain ⟨rfl, hr⟩ := escapeChars_dot c cs ['.'] h
      cases cs with
      | nil => simp [escapeChars] at hr
      | cons c2 cs2 =>
        obtain ⟨rfl, hr2⟩ := escapeChars_dot c2 cs2 [] hr
        have := escapeChars_eq_nil cs2 hr2
        subst this
        exact h2 (String.ext hn)

theorem splitSlash_ne_nil (xs : List Char) : splitSlash xs ≠ [] := by
  cases xs with
  | nil => simp [splitSlash]
  | cons c cs =>
    simp only [splitSlash]
    split
    · simp
    · split <;> simp

theorem splitSlash_append (xs ys : List Char) :
    splitSlash (xs ++ '/' :: ys) = splitSlash xs ++ splitSlash ys := by
  induction xs with
  | nil => simp [splitSlash]
  | cons c cs ih =>
    rw [List.cons_append]
    by_cases hc : c = '/'
    · rw [splitSlash, if_pos hc, ih, splitSlash, if_pos hc]
      rfl
    · rw [splitSlash, if_neg hc, ih, splitSlash, if_neg hc]
      cases hs : splitSlash cs with
      | nil => exact absurd hs (splitSlash_ne_nil cs)
      | cons x rest => rfl

theorem splitSlash_component (ys : List Char) (h : '/' ∉ ys) : splitSlash ys = [ys] := by
  induction ys with
  | nil => rfl
  | cons c cs ih =>
    have hc : c ≠ '/' := fun e => h (by rw [e]; simp)
    have hcs : '/' ∉ cs := fun e => h (List.mem_cons_of_mem _ e)
    simp [splitSlash, hc, ih hcs]

theorem intercalate_go_append (s : String) : ∀ (l : List String) (acc x : String),
    String.intercalate.go acc s (l ++ [x]) = String.intercalate.go acc s l ++ s ++ x := by
  intro l
  induction l with
  | nil => intro acc x; simp [String.intercalate.go]
  | cons a as ih => intro acc x; simp [String.intercalate.go, ih]

theorem intercalate_append_one (s : String) (l : List String) (x : String) (hl : l ≠ []) :
    String.intercalate s (l ++ [x]) = String.intercalate s l ++ s ++ x := by
  cases l with
  | nil => exact absurd rfl hl
  | cons a as => simp [String.intercalate, intercalate_go_append]

/-- Cleaning a non-empty path extended by one ordinary component appends the component
to the cleaned path, unless the path cleans to `/` or `.`. -/
theorem Clean_append_component (mp e : String) (hmp : Clean mp ≠ "/") (hmp2 : Clean mp ≠ ".")
    (he0 : e.data ≠ []) (hes : '/' ∉ e.data) (he1 : e.data ≠ ['.'])
    (he2 : e.data ≠ ['.', '.']) :
    Clean (mp ++ "/" ++ e) = Clean mp ++ "/" ++ e := by
  have hne : mp ≠ "" := by
    rintro rfl
    exact hmp2 (by decide)
  have hdata : mp.data ≠ [] := fun h => hne (String.ext h)
  have hne2 : mp ++ "/" ++ e ≠ "" := by
    intro h
    have := congrArg String.data h
    simp [String.data_append] at this
  have hd : (mp ++ "/" ++ e).data = mp.data ++ '/' :: e.data := by
    simp [String.data_append]
  have hhead : (mp.data ++ '/' :: e.data).head? = mp.data.head? := by
    cases hm : mp.data with
    | nil => exact absurd hm hdata
    | cons c cs => rfl
  have hstep : ∀ rooted st, cleanStep rooted st e.data = e.data :: st := by
    intro rooted st
    simp [cleanStep, he0, he1, he2]
  have hmk : String.mk e.data = e := rfl
  have hC : Clean mp
      = if decide (mp.data.head? = some '/') = true then
          "/" ++ String.intercalate "/" (List.map String.mk
            (List.foldl (cleanStep (decide (mp.data.head? = some '/'))) []
              (splitSlash mp.data)).reverse)
        else if String.intercalate "/" (List.map String.mk
            (List.foldl (cleanStep (decide (mp.data.head? = some '/'))) []
              (splitSlash mp.data)).reverse) = "" then "."
        else String.intercalate "/" (List.map String.mk
            (List.foldl (cleanStep (decide (mp.data.head? = some '/'))) []
              (splitSlash mp.data)).reverse) := by
    unfold Clean
    rw [if_neg hne]
  have hC2 : Clean (mp ++ "/" ++ e)
      = if decide (mp.data.head? = some '/') = true then
          "/" ++ String.intercalate "/" (List.map String.mk
            (List.foldl (cleanStep (decide (mp.data.head? = some '/'))) []
              (splitSlash mp.data)).reverse ++ [e])
        else if String.intercalate "/" (List.map String.mk
            (List.foldl (cleanStep (decide (mp.data.head? = some '/'))) []
              (splitSlash mp.data)).reverse ++ [e]) = "" then "."
        else String.intercalate "/" (List.map String.mk
            (List.foldl (cleanStep (decide (mp.data.head? = some '/'))) []
              (splitSlash mp.data)).reverse ++ [e]) := by
    unfold Clean
    rw [if_neg hne2]
    simp only [hd, hhead, splitSlash_append, splitSlash_component _ hes, List.foldl_append,
      List.foldl_cons, List.foldl_nil, hstep, List.reverse_cons, List.map_append,
      List.map_cons, List.map_nil, hmk]
  rw [hC2]
  rw [hC] at hmp hmp2 ⊢
  generalize decide (mp.data.head? = some '/') = R at hmp hmp2 ⊢
  generalize List.map String.mk (List.foldl (cleanStep R) [] (splitSlash mp.data)).reverse = L
    at hmp hmp2 ⊢
  have hslash : ∀ a : String, a ++ "/" ++ e ≠ "" := by
    intro a h
    have := congrArg String.data h
    simp [String.data_append] at this
  cases R with
  | true =>
    simp only [if_true] at hmp ⊢
    have hL : L ≠ [] := by
      rintro rfl
      exact hmp (by simp [String.intercalate])
    rw [intercalate_append_one _ _ _ hL]
    simp [String.append_assoc]
  | false =>
    simp only [Bool.false_eq_true, if_false] at hmp2 ⊢
    have hb : String.intercalate "/" L ≠ "" := by
      intro h
      rw [if_pos h] at hmp2
      exact hmp2 rfl
    have hL : L ≠ [] := by
      rintro rfl
      exact hb (by simp [String.intercalate])
    rw [intercalate_append_one _ _ _ hL, if_neg (hslash _), if_neg hb]

theorem Join_two (a b : String) (ha : a ≠ "") : Join [a, b] = Clean (a ++ "/" ++ b) := by
  simp [Join, ha, String.intercalate, String.intercalate.go]

/-- C19, for ordinary names and roots. For every volume name other than the empty name,
`.` and `..`, and a local root that does not clean to `/` or `.`, `Driver.mountpoint(name)`
is the cleaned local root followed by one separator and the escaped name, and the escaped
name is a single non-empty path component: it contains no separator and is neither `.`
nor `..`. -/
theorem mountpoint_inside_root (d : Driver) (name : String) (h0 : name ≠ "")
    (h1 : name ≠ ".") (h2 : name ≠ "..") (hr1 : Clean d.config.MountPoint ≠ "/")
    (hr2 : Clean d.config.MountPoint ≠ ".") :
    d.mountpoint name = Clean d.config.MountPoint ++ "/" ++ QueryEscape name
      ∧ QueryEscape name ≠ "" ∧ '/' ∉ (QueryEscape name).data
      ∧ QueryEscape name ≠ "." ∧ QueryEscape name ≠ ".." := by
  obtain ⟨e0, es, e1, e2⟩ := QueryEscape_component name h0 h1 h2
  have hne : d.config.MountPoint ≠ "" := by
    intro h
    rw [h] at hr2
    exact hr2 (by decide)
  refine ⟨?_, ?_, es, ?_, ?_⟩
  · rw [Driver.mountpoint, Join_two _ _ hne]
    exact Clean_append_component _ _ hr1 hr2 e0 es e1 e2
  · intro h; rw [h] at e0; exact e0 rfl
  · intro h; rw [h] at e1; exact e1 rfl
  · intro h; rw [h] at e2; exact e2 rfl

theorem mountpoint_inside_root_witness :
    exDriver.mountpoint "proj/2024" = Clean "/mnt" ++ "/" ++ QueryEscape "proj/2024"
      ∧ QueryEscape "proj/2024" ≠ "" ∧ '/' ∉ (QueryEscape "proj/2024").data
      ∧ QueryEscape "proj/2024" ≠ "." ∧ QueryEscape "proj/2024" ≠ ".." :=
  mountpoint_inside_root exDriver "proj/2024" (by decide) (by decide) (by decide) (by decide)
    (by decide)

/-- C19 fails as stated. With the local root `/mnt`, the empty volume name and the name
`.` are mapped to the local root itself and the name `..` to `/`, the parent of the local
root: `url.QueryEscape` leaves dots alone and `path.Join` resolves them.  And for a local
root that cleans to `/` or to `.` the mountpoint of `vol` is `/vol` resp. `vol`, not the
cleaned root followed by a separator and the name. -/
theorem mountpoint_of_dot_names :
    Clean "/mnt" = "/mnt"
      ∧ exDriver.mountpoint "" = "/mnt"
      ∧ exDriver.mountpoint "." = "/mnt"
      ∧ exDriver.mountpoint ".." = "/"
      ∧ ({ exDriver with config := { Root := "/tmp", MountPoint := "/" } } : Driver).mountpoint
          "vol" = "/vol"
      ∧ Clean "/" ++ "/" ++ QueryEscape "vol" = "//vol"
      ∧ ({ exDriver with config := { Root := "/tmp", MountPoint := "." } } : Driver).mountpoint
          "vol" = "vol"
      ∧ Clean "." ++ "/" ++ QueryEscape "vol" = "./vol" := by
  refine ⟨by decide, by decide, by decide, by decide, by decide, by decide, by decide,
    by decide⟩

end Sshfs
